import Mathlib

/-!
Slotmap.

A verification development for `Slotmap.hpp`: a handle-indexed object pool
that stores its values densely, hands out integer handles, removes by
swapping the last value into the hole, and recycles handles through a free
list threaded through the handle table.

The three `std::vector`s are lists. Every `operator[]` of the source is a
bounds-checked access here: reading or writing outside a vector is undefined
behaviour in the source and `none` in this development, and so is a failed
`assert`. `size_t` values are natural numbers: every one of them is an index
into, or the length of, one of the vectors, so no arithmetic wraps, except
`elements.size() - 1` on an empty vector, which is kept from being used by
the read that fails there.

A handle (`SlotmapHandle = size_t`) is a natural number. A cursor
(`iterator`, `const_iterator`) is a pointer into `elements`; it is
represented by its offset from `elements.data()`, a natural number.
-/

/-- The private state of `Slotmap<T>`, with the initial values of the source
as defaults. -/
structure Slotmap (T : Type) where
  elements : List T := []
  keys : List Nat := []
  eraseMap : List Nat := []
  freeKeyHead : Nat := 0
  freeKeyTail : Nat := 0
  deriving DecidableEq, Repr

namespace Slotmap

/-- The assignment `v[i] = x` on a vector: it fails outside the vector. -/
def writeAt {α : Type} (v : List α) (i : Nat) (x : α) : Option (List α) :=
  if i < v.length then some (v.set i x) else none

/-- The result of `addElement(const T&)` (and of the `T&&` overload, which
differs only in how the value is passed): the new state and the returned
handle. -/
def addElement {T : Type} (s : Slotmap T) (newElement : T) :
    Option (Slotmap T × Nat) :=
  let keys0 := if s.keys.length = 0 then s.keys ++ [0] else s.keys
  let elements := s.elements ++ [newElement]
  let eraseMap := s.eraseMap ++ [s.freeKeyHead]
  (if s.freeKeyHead = s.freeKeyTail then
      let newFreeSlotIndex := keys0.length
      (writeAt (keys0 ++ [newFreeSlotIndex]) s.freeKeyTail newFreeSlotIndex).map
        fun k => (k, newFreeSlotIndex)
    else some (keys0, s.freeKeyTail)).bind fun kt =>
  (kt.1[s.freeKeyHead]?).bind fun nextFreeIndex =>
  (writeAt kt.1 s.freeKeyHead (elements.length - 1)).bind fun keys2 =>
  some ({ elements := elements, keys := keys2, eraseMap := eraseMap,
          freeKeyHead := nextFreeIndex, freeKeyTail := kt.2 }, s.freeKeyHead)

/-- The result of `elementAt(handle)`: `none` when one of the two assertions
fails or an index is outside its vector. -/
def elementAt {T : Type} (s : Slotmap T) (handle : Nat) : Option T :=
  if s.keys.length > handle then
    (s.keys[handle]?).bind fun p =>
    (s.eraseMap[p]?).bind fun back =>
    if back = handle then s.elements[p]? else none
  else none

/-- The value `elementAt(handle)` reads when the assertions are compiled
out (`NDEBUG`): `elements[keys[handle]]`. -/
def elementAtUnchecked {T : Type} (s : Slotmap T) (handle : Nat) : Option T :=
  (s.keys[handle]?).bind fun p => s.elements[p]?

/-- The result of `removeElement(handle)`: `none` when the assertion fails or
an index is outside its vector. -/
def removeElement {T : Type} (s : Slotmap T) (handle : Nat) :
    Option (Slotmap T) :=
  if s.keys.length > handle then
    (s.keys[handle]?).bind fun eraseElementIndex =>
    (s.elements[s.elements.length - 1]?).bind fun lastElement =>
    (writeAt s.elements eraseElementIndex lastElement).bind fun elements1 =>
    (s.eraseMap[elements1.length - 1]?).bind fun lastHandle =>
    (writeAt s.eraseMap eraseElementIndex lastHandle).bind fun eraseMap1 =>
    (eraseMap1[eraseElementIndex]?).bind fun movedHandle =>
    (writeAt s.keys movedHandle eraseElementIndex).bind fun keys1 =>
    let elements2 := elements1.eraseIdx (elements1.length - 1)
    let eraseMap2 := eraseMap1.eraseIdx (eraseMap1.length - 1)
    (writeAt keys1 s.freeKeyTail handle).bind fun keys2 =>
    (writeAt keys2 handle handle).bind fun keys3 =>
    some { elements := elements2, keys := keys3, eraseMap := eraseMap2,
           freeKeyHead := s.freeKeyHead, freeKeyTail := handle }
  else none

/-- The state after `clear()`. -/
def clear {T : Type} (_s : Slotmap T) : Slotmap T :=
  { elements := [], keys := [], eraseMap := [], freeKeyHead := 0, freeKeyTail := 0 }

/-- The value of `size()`. -/
def size {T : Type} (s : Slotmap T) : Nat := s.elements.length

/-- The cursor `begin()` / `cbegin()`: `elements.data()`. -/
def begin_ {T : Type} (_s : Slotmap T) : Nat := 0

/-- The cursor `end()` / `cend()`: `elements.data() + elements.size()`. -/
def end_ {T : Type} (s : Slotmap T) : Nat := s.elements.length

/-- The value `*it` of a cursor. -/
def deref {T : Type} (s : Slotmap T) (it : Nat) : Option T := s.elements[it]?

/-- The cursor `find(handle)` (both overloads). The read `keys[handle]` is
inside the vector on the branch that performs it. -/
def find {T : Type} (s : Slotmap T) (handle : Nat) : Nat :=
  if h : handle ≥ s.keys.length then s.elements.length
  else s.keys.get ⟨handle, Nat.lt_of_not_le h⟩

/-- The result of `handle(handleIterator)`: `eraseMap[it - elements.data()]`. -/
def handle {T : Type} (s : Slotmap T) (handleIterator : Nat) : Option Nat :=
  s.eraseMap[handleIterator]?

/-- The loop `for (it = first; it != end(); ++it)`, collecting the cursors it
visits; `none` when the fuel runs out before `end()` is met. -/
def traverseFrom {T : Type} (s : Slotmap T) : Nat → Nat → Option (List Nat)
  | 0, it => if it = end_ s then some [] else none
  | fuel + 1, it =>
    if it = end_ s then some [] else (traverseFrom s fuel (it + 1)).map fun r => it :: r

/-- The operations of a client on one slotmap. -/
inductive Op (T : Type) where
  | add (v : T)
  | remove (h : Nat)
  | clear
  deriving DecidableEq, Repr

/-- One client operation on a slotmap paired with the handles in use (those
returned by `addElement` and neither removed nor cleared since).
`removeElement` is only called on a handle in use. -/
def step {T : Type} (st : Slotmap T × List Nat) :
    Op T → Option (Slotmap T × List Nat)
  | Op.add v => (addElement st.1 v).map fun r => (r.1, r.2 :: st.2)
  | Op.remove h =>
    if h ∈ st.2 then (removeElement st.1 h).map fun s => (s, st.2.erase h) else none
  | Op.clear => some (clear st.1, [])

/-- A sequence of client operations from a given state. -/
def runFrom {T : Type} (st : Slotmap T × List Nat) :
    List (Op T) → Option (Slotmap T × List Nat)
  | [] => some st
  | op :: ops => (step st op).bind fun st1 => runFrom st1 ops

/-- The freshly constructed slotmap. -/
def empty (T : Type) : Slotmap T := {}

/-- A sequence of client operations on a freshly constructed slotmap. -/
def run {T : Type} (ops : List (Op T)) : Option (Slotmap T × List Nat) :=
  runFrom (empty T, []) ops

/-- The state `s` with in-use handles `live` is reached from the empty
slotmap by some sequence of operations. -/
def Reachable {T : Type} (s : Slotmap T) (live : List Nat) : Prop :=
  ∃ ops : List (Op T), run ops = some (s, live)

/-- Number of `addElement` calls in a sequence. -/
def countAdd {T : Type} : List (Op T) → Nat
  | [] => 0
  | Op.add _ :: ops => countAdd ops + 1
  | _ :: ops => countAdd ops

/-- Number of `removeElement` calls in a sequence. -/
def countRemove {T : Type} : List (Op T) → Nat
  | [] => 0
  | Op.remove _ :: ops => countRemove ops + 1
  | _ :: ops => countRemove ops

/-- The sequence contains no `clear`. -/
def noClear {T : Type} : List (Op T) → Bool
  | [] => true
  | Op.clear :: _ => false
  | _ :: ops => noClear ops

/-- The state after `addElement(10)` on a constructed `Slotmap<size_t>`. -/
def sampleOne : Slotmap Nat :=
  { elements := [10], keys := [0, 1], eraseMap := [0], freeKeyHead := 1, freeKeyTail := 1 }

/-- The state after `addElement(20)` on `sampleOne`. -/
def sampleTwo : Slotmap Nat :=
  { elements := [10, 20], keys := [0, 1, 2], eraseMap := [0, 1], freeKeyHead := 2,
    freeKeyTail := 2 }

/-- The state after `addElement(10)`, `addElement(20)`, `addElement(30)` on a
constructed `Slotmap<size_t>`; the handles 0, 1, 2 are in use. -/
def sampleThree : Slotmap Nat :=
  { elements := [10, 20, 30], keys := [0, 1, 2, 3], eraseMap := [0, 1, 2],
    freeKeyHead := 3, freeKeyTail := 3 }

/-- The state after `removeElement(0)` on `sampleThree`; the handles 1, 2 are
in use. -/
def sampleRemoved : Slotmap Nat :=
  { elements := [30, 20], keys := [0, 1, 0, 0], eraseMap := [2, 1],
    freeKeyHead := 3, freeKeyTail := 0 }

/-- The state after `addElement(40)` on `sampleRemoved`; the handles 1, 2, 3
are in use. -/
def sampleReused : Slotmap Nat :=
  { elements := [30, 20, 40], keys := [0, 1, 0, 2], eraseMap := [2, 1, 3],
    freeKeyHead := 0, freeKeyTail := 0 }

/-- The free chain: each handle of the list is linked by `keys` to the next
one, and the last one to itself. -/
def IsChain (keys : List Nat) : List Nat → Prop
  | [] => False
  | [t] => keys[t]? = some t
  | a :: b :: rest => keys[a]? = some b ∧ IsChain keys (b :: rest)

/-- The representation invariant of a slotmap whose handle table is not
empty, for the handles in use `live` and the free chain `free`. -/
structure Core {T : Type} (s : Slotmap T) (live free : List Nat) : Prop where
  lenEq : s.elements.length = s.eraseMap.length
  liveNodup : live.Nodup
  liveLen : live.length = s.elements.length
  fwd : ∀ h ∈ live, ∃ p, s.keys[h]? = some p ∧ s.eraseMap[p]? = some h
  bwd : ∀ p h, s.eraseMap[p]? = some h → h ∈ live ∧ s.keys[h]? = some p
  freeNodup : free.Nodup
  disj : ∀ h ∈ free, h ∉ live
  dom : ∀ h, h < s.keys.length ↔ h ∈ live ∨ h ∈ free
  headEq : free.head? = some s.freeKeyHead
  tailEq : free.getLast? = some s.freeKeyTail
  chain : IsChain s.keys free

/-- The representation invariant: the slotmap is as constructed, or its
handle table is not empty and `Core` holds for some free chain. -/
def Inv {T : Type} (s : Slotmap T) (live : List Nat) : Prop :=
  (s = empty T ∧ live = []) ∨ ∃ free, Core s live free

/-- Invariant 1 of the data model: every handle in use has a position below
`elements.size()`, and the reverse map at that position names the handle. -/
def ReverseMapConsistent {T : Type} (s : Slotmap T) (live : List Nat) : Prop :=
  ∀ h, h ∈ live → ∃ p, s.keys[h]? = some p ∧ p < s.elements.length ∧ s.eraseMap[p]? = some h

/-- The walk along the free list: from `h`, follow `h -> keys[h]` up to the
entry that links to itself, collecting the handles met; `none` when an entry
is outside the handle table or the fuel runs out. -/
def freeChainFrom (keys : List Nat) : Nat → Nat → Option (List Nat)
  | 0, _ => none
  | fuel + 1, h =>
    (keys[h]?).bind fun next =>
      if next = h then some [h] else (freeChainFrom keys fuel next).map fun r => h :: r

/-- The free chain of a slotmap: the walk from `freeKeyHead`, with one unit
of fuel for each entry of the handle table. -/
def freeChain {T : Type} (s : Slotmap T) : Option (List Nat) :=
  freeChainFrom s.keys s.keys.length s.freeKeyHead

/-- The dequeue of the FIFO queue of free handles, in the words of the
specification: the head is handed out; when it was the only entry, the queue
is first extended by the fresh slot `fresh` (the length of the handle
table). -/
def specDequeue (queue : List Nat) (fresh : Nat) : Option (Nat × List Nat) :=
  match queue with
  | [] => none
  | [f] => some (f, [fresh])
  | f :: g :: rest => some (f, g :: rest)

/-- The enqueue of the FIFO queue of free handles, in the words of the
specification: the removed handle goes to the tail. -/
def specEnqueue (queue : List Nat) (h : Nat) : List Nat := queue ++ [h]

/-- Consecutive `addElement` calls, one for each value, collecting the
returned handles in call order. -/
def addAll {T : Type} (s : Slotmap T) : List T → Option (Slotmap T × List Nat)
  | [] => some (s, [])
  | v :: vs =>
    (addElement s v).bind fun r => (addAll r.1 vs).map fun r2 => (r2.1, r.2 :: r2.2)

/-- Consecutive `removeElement` calls, one for each handle. -/
def removeAll {T : Type} (s : Slotmap T) : List Nat → Option (Slotmap T)
  | [] => some s
  | h :: hs => (removeElement s h).bind fun s1 => removeAll s1 hs

/-- The bounds-checked form of the condition the assertions of `elementAt`
test: `h < keys.size()`, `keys[h] < eraseMap.size()` and
`eraseMap[keys[h]] == h`. -/
def debugCondition {T : Type} (s : Slotmap T) (h : Nat) : Bool :=
  decide (h < s.keys.length) &&
    match s.keys[h]? with
    | none => false
    | some p => decide (p < s.eraseMap.length) && (s.eraseMap[p]? == some h)

/-- A sequence of client operations that also tracks the largest value
`size()` has taken since construction or the last `clear()`. -/
def runPeakFrom {T : Type} (st : Slotmap T × List Nat) (peak : Nat) :
    List (Op T) → Option ((Slotmap T × List Nat) × Nat)
  | [] => some (st, peak)
  | Op.clear :: ops => (step st Op.clear).bind fun st1 => runPeakFrom st1 (size st1.1) ops
  | op :: ops => (step st op).bind fun st1 => runPeakFrom st1 (max peak (size st1.1)) ops

/-! ## Auxiliary facts on vectors and chains -/

theorem writeAt_of_lt {α : Type} {v : List α} {i : Nat} (x : α) (h : i < v.length) :
    writeAt v i x = some (v.set i x) := by
  simp [writeAt, h]

theorem lt_of_getElem?_some {α : Type} {v : List α} {i : Nat} {x : α}
    (h : v[i]? = some x) : i < v.length := by
  rcases List.getElem?_eq_some.mp h with ⟨hlt, _⟩
  exact hlt

theorem eraseIdx_last_get {α : Type} (v : List α) (q : Nat) :
    (v.eraseIdx (v.length - 1))[q]? = if q < v.length - 1 then v[q]? else none := by
  rw [List.getElem?_eraseIdx]
  by_cases hq : q < v.length - 1
  · simp [hq]
  · simp only [hq, if_false]
    exact List.getElem?_eq_none (by omega)

theorem IsChain.ne_nil {keys : List Nat} {fr : List Nat}
    (h : IsChain keys fr) : fr ≠ [] := by
  intro hnil
  subst hnil
  exact h

theorem IsChain.frame {keys keys2 : List Nat} :
    ∀ {fr : List Nat}, IsChain keys fr →
      (∀ a ∈ fr, keys2[a]? = keys[a]?) → IsChain keys2 fr
  | [], h, _ => h
  | [t], h, hf => by
    have := hf t (by simp)
    simpa [IsChain, this] using h
  | a :: b :: rest, h, hf => by
    have ha := hf a (by simp)
    refine ⟨by rw [ha]; exact h.1, ?_⟩
    exact IsChain.frame h.2 (fun x hx => hf x (List.mem_cons_of_mem _ hx))

theorem IsChain.concat {keys keys2 : List Nat} {t h : Nat} :
    ∀ {fr : List Nat}, IsChain keys fr → fr.getLast? = some t →
      (∀ a ∈ fr, a ≠ t → keys2[a]? = keys[a]?) → fr.Nodup →
      keys2[t]? = some h → keys2[h]? = some h → IsChain keys2 (fr ++ [h])
  | [], hc, _, _, _, _, _ => hc.elim
  | [x], _, hl, _, _, ht, hh => by
    have hx : x = t := by simpa using hl
    subst hx
    exact ⟨ht, hh⟩
  | a :: b :: rest, hc, hl, hf, hnd, ht, hh => by
    have hl2 : (b :: rest).getLast? = some t := by simpa using hl
    have hat : a ≠ t := by
      intro hat
      have hmem : t ∈ b :: rest := List.mem_of_getLast?_eq_some hl2
      have hnot : a ∉ b :: rest := (List.nodup_cons.mp hnd).1
      exact hnot (hat ▸ hmem)
    have ha := hf a (by simp) hat
    have hrec : IsChain keys2 ((b :: rest) ++ [h]) :=
      IsChain.concat hc.2 hl2 (fun x hx => hf x (List.mem_cons_of_mem _ hx))
        (List.nodup_cons.mp hnd).2 ht hh
    refine ⟨by rw [ha]; exact hc.1, ?_⟩
    simpa using hrec

theorem getElem?_concat_some {α : Type} (l : List α) (a x : α) (p : Nat) :
    (l ++ [a])[p]? = some x ↔ l[p]? = some x ∨ (p = l.length ∧ a = x) := by
  rw [List.getElem?_append]
  by_cases hp : p < l.length
  · simp only [hp, if_true]
    constructor
    · intro h
      exact Or.inl h
    · rintro (h | ⟨h, _⟩)
      · exact h
      · omega
  · simp only [hp, if_false]
    have hnone : l[p]? = none := List.getElem?_eq_none (by omega)
    rw [hnone]
    by_cases hpe : p = l.length
    · subst hpe
      simp
    · have : [a][p - l.length]? = none := List.getElem?_eq_none (by simp; omega)
      rw [this]
      simp [hpe]

/-- A vector after `v[p] = x` and the erasure of its last entry. -/
theorem set_eraseIdx_last_get {α : Type} (v : List α) {p : Nat} (x : α)
    (hp : p < v.length) (q : Nat) :
    ((v.set p x).eraseIdx (v.length - 1))[q]? =
      if q < v.length - 1 then (if q = p then some x else v[q]?) else none := by
  have := eraseIdx_last_get (v.set p x) q
  simp only [List.length_set] at this
  rw [this, List.getElem?_set]
  by_cases hq : q < v.length - 1
  · by_cases hqp : q = p
    · subst hqp
      simp [hq, hp]
    · simp [hq, hqp, Ne.symm hqp]
  · simp [hq]

/-- The handle table after the three writes of `removeElement`. -/
theorem keys_after_remove (keys : List Nat) {lastH t h : Nat} (p : Nat)
    (hl : lastH < keys.length) (ht : t < keys.length) (hh : h < keys.length) (x : Nat) :
    (((keys.set lastH p).set t h).set h h)[x]? =
      if x = h then some h else if x = t then some h
      else if x = lastH then some p else keys[x]? := by
  simp only [List.getElem?_set, List.length_set]
  by_cases h1 : x = h
  · subst h1
    simp [hh]
  · by_cases h2 : x = t
    · subst h2
      simp [h1, Ne.symm h1, ht]
    · by_cases h3 : x = lastH
      · subst h3
        simp [h1, Ne.symm h1, h2, Ne.symm h2, hl]
      · simp [h1, Ne.symm h1, h2, Ne.symm h2, h3, Ne.symm h3]

/-! ## The operations on a state satisfying the invariant -/

/-- The state `addElement` produces when the free chain has one handle. -/
theorem addElement_eq_single {T : Type} (s : Slotmap T) (v : T)
    (hlt : s.freeKeyHead < s.keys.length) (heq : s.freeKeyHead = s.freeKeyTail) :
    addElement s v = some
      ({ elements := s.elements ++ [v],
         keys := (s.keys ++ [s.keys.length]).set s.freeKeyHead s.elements.length,
         eraseMap := s.eraseMap ++ [s.freeKeyHead],
         freeKeyHead := s.keys.length, freeKeyTail := s.keys.length }, s.freeKeyHead) := by
  have hne : s.keys.length ≠ 0 := by omega
  have hlt2 : s.freeKeyTail < s.keys.length := heq ▸ hlt
  simp [addElement, writeAt, hne, ← heq, hlt, hlt2, Nat.lt_succ_of_lt hlt]
  rw [List.getElem_append_left (by simpa using hlt)]
  simp

/-- The state `addElement` produces when the free chain has more than one
handle. -/
theorem addElement_eq_many {T : Type} (s : Slotmap T) (v : T) (b : Nat)
    (hnext : s.keys[s.freeKeyHead]? = some b) (hne : s.freeKeyHead ≠ s.freeKeyTail) :
    addElement s v = some
      ({ elements := s.elements ++ [v],
         keys := s.keys.set s.freeKeyHead s.elements.length,
         eraseMap := s.eraseMap ++ [s.freeKeyHead],
         freeKeyHead := b, freeKeyTail := s.freeKeyTail }, s.freeKeyHead) := by
  have hlt : s.freeKeyHead < s.keys.length := lt_of_getElem?_some hnext
  have hne0 : s.keys.length ≠ 0 := by omega
  simp [addElement, writeAt, hne0, hne, hlt, hnext]

/-- The state `removeElement` produces when every access is inside its
vector. -/
theorem removeElement_eq {T : Type} (s : Slotmap T) (h p lastH : Nat) (lastV : T)
    (hp : s.keys[h]? = some p) (hpN : p < s.elements.length)
    (hlen : s.elements.length = s.eraseMap.length)
    (hlastV : s.elements[s.elements.length - 1]? = some lastV)
    (hlastH : s.eraseMap[s.elements.length - 1]? = some lastH)
    (hlastLt : lastH < s.keys.length) (htail : s.freeKeyTail < s.keys.length) :
    removeElement s h = some
      { elements := (s.elements.set p lastV).eraseIdx (s.elements.length - 1),
        keys := ((s.keys.set lastH p).set s.freeKeyTail h).set h h,
        eraseMap := (s.eraseMap.set p lastH).eraseIdx (s.elements.length - 1),
        freeKeyHead := s.freeKeyHead, freeKeyTail := h } := by
  have hlt : h < s.keys.length := lt_of_getElem?_some hp
  have hpE : p < s.eraseMap.length := hlen ▸ hpN
  simp [removeElement, writeAt, hlt, hp, hpN, hpE, hlastV, hlastH, hlastLt, htail, ← hlen]

/-- The invariant after `addElement` when the free chain has one handle: the
handle table grows by the new sentinel. -/
theorem Core.add_single {T : Type} {s : Slotmap T} {live : List Nat}
    {f : Nat} (hc : Core s live [f]) (v : T) :
    Core { elements := s.elements ++ [v],
           keys := (s.keys ++ [s.keys.length]).set f s.elements.length,
           eraseMap := s.eraseMap ++ [f],
           freeKeyHead := s.keys.length, freeKeyTail := s.keys.length }
      (f :: live) [s.keys.length] := by
  have hfl : f ∉ live := hc.disj f (by simp)
  have hflt : f < s.keys.length := (hc.dom f).2 (Or.inr (by simp))
  have hkeep : ∀ h p, h ∈ live → s.keys[h]? = some p →
      ((s.keys ++ [s.keys.length]).set f s.elements.length)[h]? = some p := by
    intro h p hl hp
    have hne : f ≠ h := fun e => hfl (e ▸ hl)
    rw [List.getElem?_set_ne hne, List.getElem?_append_left (lt_of_getElem?_some hp)]
    exact hp
  have hnew : ((s.keys ++ [s.keys.length]).set f s.elements.length)[f]? =
      some s.elements.length := by
    rw [List.getElem?_set]
    simp [Nat.lt_succ_of_lt hflt]
  refine ⟨?_, ?_, ?_, ?_, ?_, ?_, ?_, ?_, ?_, ?_, ?_⟩
  · simp [hc.lenEq]
  · exact List.nodup_cons.mpr ⟨hfl, hc.liveNodup⟩
  · simp [hc.liveLen]
  · intro h hh
    rcases List.mem_cons.mp hh with rfl | hl
    · exact ⟨s.elements.length, hnew, (getElem?_concat_some _ _ _ _).2 (Or.inr ⟨hc.lenEq, rfl⟩)⟩
    · obtain ⟨p, hp, he⟩ := hc.fwd h hl
      exact ⟨p, hkeep h p hl hp, (getElem?_concat_some _ _ _ _).2 (Or.inl he)⟩
  · intro p h hph
    rcases (getElem?_concat_some _ _ _ _).1 hph with he | ⟨hp, hfh⟩
    · obtain ⟨hl, hk⟩ := hc.bwd p h he
      exact ⟨List.mem_cons_of_mem _ hl, hkeep h p hl hk⟩
    · subst hfh
      refine ⟨List.mem_cons_self _ _, ?_⟩
      rw [hp, ← hc.lenEq]
      exact hnew
  · simp
  · intro h hh
    have hh2 : h = s.keys.length := by simpa using hh
    subst hh2
    intro hmem
    rcases List.mem_cons.mp hmem with e | hl
    · omega
    · have := (hc.dom s.keys.length).2 (Or.inl hl)
      omega
  · intro h
    have hd := hc.dom h
    simp only [List.length_set, List.length_append, List.length_singleton, List.mem_cons,
      List.mem_singleton, List.not_mem_nil, or_false] at hd ⊢
    constructor
    · intro hlt
      by_cases hL : h = s.keys.length
      · exact Or.inr hL
      · rcases hd.1 (by omega) with hl | hf
        · exact Or.inl (Or.inr hl)
        · exact Or.inl (Or.inl hf)
    · rintro ((hf | hl) | hL)
      · omega
      · have := hd.2 (Or.inl hl)
        omega
      · omega
  · rfl
  · rfl
  · show ((s.keys ++ [s.keys.length]).set f s.elements.length)[s.keys.length]? =
      some s.keys.length
    rw [List.getElem?_set_ne (by omega)]
    exact List.getElem?_concat_length _ _

/-- The invariant after `addElement` when the free chain has more than one
handle: the head of the chain is taken off. -/
theorem Core.add_many {T : Type} {s : Slotmap T} {live r : List Nat}
    {f b : Nat} (hc : Core s live (f :: b :: r)) (v : T) :
    Core { elements := s.elements ++ [v],
           keys := s.keys.set f s.elements.length,
           eraseMap := s.eraseMap ++ [f],
           freeKeyHead := b, freeKeyTail := s.freeKeyTail }
      (f :: live) (b :: r) := by
  have hfl : f ∉ live := hc.disj f (by simp)
  have hflt : f < s.keys.length := (hc.dom f).2 (Or.inr (by simp))
  have hfr : f ∉ b :: r := (List.nodup_cons.mp hc.freeNodup).1
  have hkeep : ∀ h p, h ∈ live → s.keys[h]? = some p →
      (s.keys.set f s.elements.length)[h]? = some p := by
    intro h p hl hp
    have hne : f ≠ h := fun e => hfl (e ▸ hl)
    rw [List.getElem?_set_ne hne]
    exact hp
  have hnew : (s.keys.set f s.elements.length)[f]? = some s.elements.length := by
    rw [List.getElem?_set]
    simp [hflt]
  refine ⟨?_, ?_, ?_, ?_, ?_, ?_, ?_, ?_, ?_, ?_, ?_⟩
  · simp [hc.lenEq]
  · exact List.nodup_cons.mpr ⟨hfl, hc.liveNodup⟩
  · simp [hc.liveLen]
  · intro h hh
    rcases List.mem_cons.mp hh with rfl | hl
    · exact ⟨s.elements.length, hnew, (getElem?_concat_some _ _ _ _).2 (Or.inr ⟨hc.lenEq, rfl⟩)⟩
    · obtain ⟨p, hp, he⟩ := hc.fwd h hl
      exact ⟨p, hkeep h p hl hp, (getElem?_concat_some _ _ _ _).2 (Or.inl he)⟩
  · intro p h hph
    rcases (getElem?_concat_some _ _ _ _).1 hph with he | ⟨hp, hfh⟩
    · obtain ⟨hl, hk⟩ := hc.bwd p h he
      exact ⟨List.mem_cons_of_mem _ hl, hkeep h p hl hk⟩
    · subst hfh
      refine ⟨List.mem_cons_self _ _, ?_⟩
      rw [hp, ← hc.lenEq]
      exact hnew
  · exact (List.nodup_cons.mp hc.freeNodup).2
  · intro h hh hmem
    rcases List.mem_cons.mp hmem with e | hl
    · exact hfr (e ▸ hh)
    · exact hc.disj h (List.mem_cons_of_mem _ hh) hl
  · intro h
    have hd := hc.dom h
    simp only [List.length_set, List.mem_cons] at hd ⊢
    tauto
  · rfl
  · have := hc.tailEq
    simpa using this
  · exact IsChain.frame hc.chain.2 (fun a ha => List.getElem?_set_ne (fun (e : f = a) => hfr (e ▸ ha)))

/-- The invariant after `removeElement` of a handle in use: the last value
moves into the hole and the handle joins the end of the free chain. -/
theorem Core.remove {T : Type} {s : Slotmap T} {live free : List Nat}
    (hc : Core s live free) {h p lastH : Nat} (lastV : T) (hh : h ∈ live)
    (hp : s.keys[h]? = some p)
    (hlastH : s.eraseMap[s.elements.length - 1]? = some lastH) :
    Core { elements := (s.elements.set p lastV).eraseIdx (s.elements.length - 1),
           keys := ((s.keys.set lastH p).set s.freeKeyTail h).set h h,
           eraseMap := (s.eraseMap.set p lastH).eraseIdx (s.elements.length - 1),
           freeKeyHead := s.freeKeyHead, freeKeyTail := h }
      (live.erase h) (free ++ [h]) := by
  obtain ⟨p0, hp0, hback⟩ := hc.fwd h hh
  have hpp : p0 = p := Option.some.inj (hp0.symm.trans hp)
  subst hpp
  have hpE : p0 < s.eraseMap.length := lt_of_getElem?_some hback
  have hlen := hc.lenEq
  obtain ⟨hlastL, hlastK⟩ := hc.bwd _ _ hlastH
  have htf : s.freeKeyTail ∈ free := List.mem_of_getLast?_eq_some hc.tailEq
  have htl : s.freeKeyTail ∉ live := hc.disj _ htf
  have hhf : h ∉ free := fun hm => hc.disj h hm hh
  have hhlt : h < s.keys.length := lt_of_getElem?_some hp
  have htlt : s.freeKeyTail < s.keys.length := (hc.dom _).2 (Or.inr htf)
  have hllt : lastH < s.keys.length := lt_of_getElem?_some hlastK
  have hth : s.freeKeyTail ≠ h := fun e => htl (e ▸ hh)
  have hkeys := keys_after_remove s.keys p0 hllt htlt hhlt
  have herase : ∀ q, ((s.eraseMap.set p0 lastH).eraseIdx (s.elements.length - 1))[q]? =
      if q < s.elements.length - 1 then (if q = p0 then some lastH else s.eraseMap[q]?)
      else none := by
    intro q
    have := set_eraseIdx_last_get s.eraseMap lastH hpE q
    rw [← hlen] at this
    exact this
  refine ⟨?_, ?_, ?_, ?_, ?_, ?_, ?_, ?_, ?_, ?_, ?_⟩
  · simp [List.length_eraseIdx, hlen]
  · exact hc.liveNodup.erase h
  · have h1 : (live.erase h).length = live.length - 1 := List.length_erase_of_mem hh
    have h2 : ((s.elements.set p0 lastV).eraseIdx (s.elements.length - 1)).length =
        s.elements.length - 1 := by
      have hN : s.elements.length - 1 < s.elements.length := by omega
      rw [List.length_eraseIdx, List.length_set, if_pos hN]
    show (live.erase h).length = _
    rw [h1, h2, hc.liveLen]
  · intro x hx
    obtain ⟨hxh, hxl⟩ := (hc.liveNodup.mem_erase_iff).1 hx
    obtain ⟨px, hpx, hex⟩ := hc.fwd x hxl
    have hxt : x ≠ s.freeKeyTail := fun e => htl (e ▸ hxl)
    have hpxlt : px < s.eraseMap.length := lt_of_getElem?_some hex
    by_cases hxl2 : x = lastH
    · subst hxl2
      have hpne : p0 ≠ s.elements.length - 1 := by
        intro e
        rw [← e, hback] at hlastH
        exact hxh (Option.some.inj hlastH).symm
      refine ⟨p0, ?_, ?_⟩
      · show (((s.keys.set x p0).set s.freeKeyTail h).set h h)[x]? = some p0
        rw [hkeys]
        simp [hxh, hxt]
      · show ((s.eraseMap.set p0 x).eraseIdx (s.elements.length - 1))[p0]? = some x
        rw [herase]
        have : p0 < s.elements.length - 1 := by omega
        simp [this]
    · have hpxne : px ≠ s.elements.length - 1 := by
        intro e
        rw [← e, hex] at hlastH
        exact hxl2 (Option.some.inj hlastH)
      have hpxp : px ≠ p0 := by
        intro e
        rw [e, hback] at hex
        exact hxh (Option.some.inj hex).symm
      refine ⟨px, ?_, ?_⟩
      · show (((s.keys.set lastH p0).set s.freeKeyTail h).set h h)[x]? = some px
        rw [hkeys]
        simp [hxh, hxt, hxl2, hpx]
      · show ((s.eraseMap.set p0 lastH).eraseIdx (s.elements.length - 1))[px]? = some x
        rw [herase]
        have : px < s.elements.length - 1 := by omega
        simp [this, hpxp, hex]
  · intro q x hqx
    have hqx2 : ((s.eraseMap.set p0 lastH).eraseIdx (s.elements.length - 1))[q]? = some x := hqx
    rw [herase] at hqx2
    by_cases hq : q < s.elements.length - 1
    · simp only [hq, if_true] at hqx2
      by_cases hqp : q = p0
      · simp only [hqp, if_true] at hqx2
        have hxe : lastH = x := Option.some.inj hqx2
        subst hxe
        have hne : lastH ≠ h := by
          intro e
          rw [e, hp] at hlastK
          have := Option.some.inj hlastK
          omega
        have hlt : lastH ≠ s.freeKeyTail := fun e => htl (e ▸ hlastL)
        refine ⟨(hc.liveNodup.mem_erase_iff).2 ⟨hne, hlastL⟩, ?_⟩
        show (((s.keys.set lastH p0).set s.freeKeyTail h).set h h)[lastH]? = some q
        rw [hkeys]
        simp [hne, hlt, hqp]
      · simp only [hqp, if_false] at hqx2
        obtain ⟨hxl, hxk⟩ := hc.bwd q x hqx2
        have hxh : x ≠ h := by
          intro e
          rw [e, hp] at hxk
          exact hqp (Option.some.inj hxk).symm
        have hxl2 : x ≠ lastH := by
          intro e
          rw [e, hlastK] at hxk
          have := Option.some.inj hxk
          omega
        have hxt : x ≠ s.freeKeyTail := fun e => htl (e ▸ hxl)
        refine ⟨(hc.liveNodup.mem_erase_iff).2 ⟨hxh, hxl⟩, ?_⟩
        show (((s.keys.set lastH p0).set s.freeKeyTail h).set h h)[x]? = some q
        rw [hkeys]
        simp [hxh, hxt, hxl2, hxk]
    · simp [hq] at hqx2
  · rw [List.nodup_append]
    refine ⟨hc.freeNodup, List.nodup_singleton h, ?_⟩
    intro a ha hb
    have : a = h := by simpa using hb
    exact hhf (this ▸ ha)
  · intro x hx hxe
    obtain ⟨hxh, hxl⟩ := (hc.liveNodup.mem_erase_iff).1 hxe
    rcases List.mem_append.mp hx with hf | hs
    · exact hc.disj x hf hxl
    · exact hxh (by simpa using hs)
  · intro x
    have hd := hc.dom x
    simp only [List.length_set, List.mem_append, List.mem_singleton,
      hc.liveNodup.mem_erase_iff] at hd ⊢
    constructor
    · intro hlt
      by_cases hxh : x = h
      · exact Or.inr (Or.inr hxh)
      · rcases hd.1 hlt with hl | hf
        · exact Or.inl ⟨hxh, hl⟩
        · exact Or.inr (Or.inl hf)
    · rintro (⟨_, hl⟩ | hf | hxh)
      · exact hd.2 (Or.inl hl)
      · exact hd.2 (Or.inr hf)
      · rw [hxh]; exact hhlt
  · have hne : free ≠ [] := hc.chain.ne_nil
    cases free with
    | nil => exact absurd rfl hne
    | cons a t => simpa using hc.headEq
  · exact List.getLast?_concat _
  · apply IsChain.concat hc.chain hc.tailEq _ hc.freeNodup
    · show (((s.keys.set lastH p0).set s.freeKeyTail h).set h h)[s.freeKeyTail]? = some h
      rw [hkeys]
      simp [hth]
    · show (((s.keys.set lastH p0).set s.freeKeyTail h).set h h)[h]? = some h
      rw [hkeys]
      simp
    · intro a ha hat
      show (((s.keys.set lastH p0).set s.freeKeyTail h).set h h)[a]? = s.keys[a]?
      rw [hkeys]
      have hah : a ≠ h := fun e => hhf (e ▸ ha)
      have hal : a ≠ lastH := fun e => hc.disj a ha (e ▸ hlastL)
      simp [hah, hat, hal]

/-- The state after `keys.push_back(0)` on the constructed slotmap satisfies
the invariant with the free chain `[0]`. -/
theorem Core.seed (T : Type) :
    Core ({ elements := [], keys := [0], eraseMap := [], freeKeyHead := 0,
            freeKeyTail := 0 } : Slotmap T) [] [0] := by
  refine ⟨rfl, List.nodup_nil, rfl, ?_, ?_, by simp, ?_, ?_, rfl, rfl, ?_⟩
  · intro h hh
    exact absurd hh (List.not_mem_nil h)
  · intro p h hph
    simp at hph
  · intro h _
    exact List.not_mem_nil h
  · intro h
    simp
  · show [0][0]? = some 0
    rfl

/-- The first `addElement` on a constructed or cleared slotmap. -/
theorem addElement_empty {T : Type} (v : T) :
    addElement (empty T) v = some
      ({ elements := [v], keys := [0, 1], eraseMap := [0], freeKeyHead := 1,
         freeKeyTail := 1 }, 0) := by
  rfl

/-- What `addElement` does on a state satisfying the invariant: it returns
the head of the free chain, appends the value, and leaves the entries of the
handles in use alone. -/
theorem addElement_inv {T : Type} {s : Slotmap T} {live : List Nat}
    (hi : Inv s live) (v : T) :
    ∃ s2 free2, addElement s v = some (s2, s.freeKeyHead) ∧
      Core s2 (s.freeKeyHead :: live) free2 ∧ s.freeKeyHead ∉ live ∧
      s2.elements = s.elements ++ [v] ∧ s2.eraseMap = s.eraseMap ++ [s.freeKeyHead] ∧
      s2.keys[s.freeKeyHead]? = some s.elements.length ∧
      (∀ h ∈ live, s2.keys[h]? = s.keys[h]?) ∧
      s.elements.length = s.eraseMap.length := by
  rcases hi with ⟨hs, hl⟩ | ⟨free, hc⟩
  · subst hs
    subst hl
    refine ⟨_, [1], addElement_empty v, Core.add_single (Core.seed T) v, ?_, rfl, rfl, rfl,
      ?_, rfl⟩
    · exact List.not_mem_nil _
    · intro h hh
      exact absurd hh (List.not_mem_nil h)
  · cases free with
    | nil => exact absurd rfl hc.chain.ne_nil
    | cons f rest =>
      have hf : f = s.freeKeyHead := by simpa using hc.headEq
      subst hf
      have hfl : s.freeKeyHead ∉ live := hc.disj _ (by simp)
      have hflt : s.freeKeyHead < s.keys.length := (hc.dom _).2 (Or.inr (by simp))
      cases rest with
      | nil =>
        have ht : s.freeKeyHead = s.freeKeyTail := by simpa using hc.tailEq
        refine ⟨_, _, addElement_eq_single s v hflt ht, hc.add_single v, hfl, rfl, rfl, ?_, ?_,
          hc.lenEq⟩
        · show ((s.keys ++ [s.keys.length]).set s.freeKeyHead s.elements.length)[s.freeKeyHead]?
            = some s.elements.length
          rw [List.getElem?_set]
          simp [Nat.lt_succ_of_lt hflt]
        · intro h hh
          show ((s.keys ++ [s.keys.length]).set s.freeKeyHead s.elements.length)[h]? = s.keys[h]?
          have hne : s.freeKeyHead ≠ h := fun e => hfl (e ▸ hh)
          have hlt : h < s.keys.length := (hc.dom h).2 (Or.inl hh)
          rw [List.getElem?_set_ne hne, List.getElem?_append_left hlt]
      | cons b r =>
        have hnext : s.keys[s.freeKeyHead]? = some b := hc.chain.1
        have hne : s.freeKeyHead ≠ s.freeKeyTail := by
          intro e
          have hl2 : (b :: r).getLast? = some s.freeKeyTail := by simpa using hc.tailEq
          have hmem : s.freeKeyTail ∈ b :: r := List.mem_of_getLast?_eq_some hl2
          exact (List.nodup_cons.mp hc.freeNodup).1 (e ▸ hmem)
        refine ⟨_, _, addElement_eq_many s v b hnext hne, hc.add_many v, hfl, rfl, rfl, ?_, ?_,
          hc.lenEq⟩
        · show (s.keys.set s.freeKeyHead s.elements.length)[s.freeKeyHead]?
            = some s.elements.length
          rw [List.getElem?_set]
          simp [hflt]
        · intro h hh
          show (s.keys.set s.freeKeyHead s.elements.length)[h]? = s.keys[h]?
          have hne : s.freeKeyHead ≠ h := fun e => hfl (e ▸ hh)
          rw [List.getElem?_set_ne hne]

/-- What `removeElement` does on a handle in use of a state satisfying the
invariant: every access is inside its vector, and the invariant holds
afterwards with the handle at the end of the free chain. -/
theorem removeElement_inv {T : Type} {s : Slotmap T} {live : List Nat}
    (hi : Inv s live) {h : Nat} (hh : h ∈ live) :
    ∃ p lastH lastV free s2,
      s.keys[h]? = some p ∧ s.eraseMap[p]? = some h ∧ p < s.elements.length ∧
      s.elements[s.elements.length - 1]? = some lastV ∧
      s.eraseMap[s.elements.length - 1]? = some lastH ∧
      lastH ∈ live ∧ s.keys[lastH]? = some (s.elements.length - 1) ∧
      s.freeKeyTail ∉ live ∧ s.freeKeyTail < s.keys.length ∧
      Core s live free ∧
      removeElement s h = some s2 ∧
      s2.elements = (s.elements.set p lastV).eraseIdx (s.elements.length - 1) ∧
      s2.keys = ((s.keys.set lastH p).set s.freeKeyTail h).set h h ∧
      s2.eraseMap = (s.eraseMap.set p lastH).eraseIdx (s.elements.length - 1) ∧
      s2.freeKeyHead = s.freeKeyHead ∧ s2.freeKeyTail = h ∧
      Core s2 (live.erase h) (free ++ [h]) := by
  rcases hi with ⟨_, hl⟩ | ⟨free, hc⟩
  · subst hl
    exact absurd hh (List.not_mem_nil h)
  · obtain ⟨p, hp, hback⟩ := hc.fwd h hh
    have hpE : p < s.eraseMap.length := lt_of_getElem?_some hback
    have hpN : p < s.elements.length := hc.lenEq ▸ hpE
    have hN : s.elements.length - 1 < s.elements.length := by omega
    have hNE : s.elements.length - 1 < s.eraseMap.length := hc.lenEq ▸ hN
    have hlastV : s.elements[s.elements.length - 1]?
        = some (s.elements.get ⟨s.elements.length - 1, hN⟩) := List.getElem?_eq_getElem hN
    have hlastH : s.eraseMap[s.elements.length - 1]?
        = some (s.eraseMap.get ⟨s.elements.length - 1, hNE⟩) := List.getElem?_eq_getElem hNE
    obtain ⟨hlastL, hlastK⟩ := hc.bwd _ _ hlastH
    have htf : s.freeKeyTail ∈ free := List.mem_of_getLast?_eq_some hc.tailEq
    have htlt : s.freeKeyTail < s.keys.length := (hc.dom _).2 (Or.inr htf)
    exact ⟨p, _, _, free, _, hp, hback, hpN, hlastV, hlastH, hlastL, hlastK, hc.disj _ htf, htlt,
      hc,
      removeElement_eq s h p _ _ hp hpN hc.lenEq hlastV hlastH (lt_of_getElem?_some hlastK) htlt,
      rfl, rfl, rfl, rfl, rfl, hc.remove _ hh hp hlastH⟩

/-- The invariant holds on the constructed slotmap. -/
theorem Inv.init (T : Type) : Inv (empty T) [] := Or.inl ⟨rfl, rfl⟩

/-- Every client operation preserves the invariant. -/
theorem Inv.step_preserved {T : Type} {s s2 : Slotmap T} {live live2 : List Nat} (hi : Inv s live)
    (op : Op T) (hs : step (s, live) op = some (s2, live2)) : Inv s2 live2 := by
  cases op with
  | add v =>
    obtain ⟨s3, free3, ha, hc3, _⟩ := addElement_inv hi v
    simp only [Slotmap.step, ha, Option.map_some', Option.some.injEq, Prod.mk.injEq] at hs
    obtain ⟨h1, h2⟩ := hs
    subst h1
    subst h2
    exact Or.inr ⟨free3, hc3⟩
  | remove h =>
    by_cases hh : h ∈ live
    · obtain ⟨p, lastH, lastV, free, s3, _, _, _, _, _, _, _, _, _, _, hr, _, _, _, _, _, hc3⟩ :=
        removeElement_inv hi hh
      simp only [Slotmap.step, hh, if_true, hr, Option.map_some', Option.some.injEq,
        Prod.mk.injEq] at hs
      obtain ⟨h1, h2⟩ := hs
      subst h1
      subst h2
      exact Or.inr ⟨_, hc3⟩
    · simp [Slotmap.step, hh] at hs
  | clear =>
    simp only [Slotmap.step, Option.some.injEq, Prod.mk.injEq] at hs
    obtain ⟨h1, h2⟩ := hs
    subst h1
    subst h2
    exact Or.inl ⟨rfl, rfl⟩

/-- A sequence of client operations preserves the invariant. -/
theorem Inv.run_preserved {T : Type} :
    ∀ (ops : List (Op T)) {s s2 : Slotmap T} {live live2 : List Nat}, Inv s live →
      runFrom (s, live) ops = some (s2, live2) → Inv s2 live2
  | [], s, s2, live, live2, hi, hr => by
    simp only [Slotmap.runFrom, Option.some.injEq, Prod.mk.injEq] at hr
    obtain ⟨h1, h2⟩ := hr
    subst h1
    subst h2
    exact hi
  | op :: ops, s, s2, live, live2, hi, hr => by
    simp only [Slotmap.runFrom] at hr
    cases hst : Slotmap.step (s, live) op with
    | none => simp [hst] at hr
    | some st1 =>
      obtain ⟨s1, live1⟩ := st1
      rw [hst] at hr
      exact Inv.run_preserved ops (hi.step_preserved op hst) hr

/-- Every reachable state satisfies the invariant. -/
theorem Reachable.inv {T : Type} {s : Slotmap T} {live : List Nat}
    (hr : Reachable s live) : Inv s live := by
  obtain ⟨ops, ho⟩ := hr
  exact Inv.run_preserved ops (Inv.init T) ho

/-! ## Consequences of the invariant -/

/-- A handle in use owns a position of the value storage, and the reverse
map at that position names the handle. -/
theorem Inv.lookup {T : Type} {s : Slotmap T} {live : List Nat} (hi : Inv s live)
    {h : Nat} (hh : h ∈ live) :
    ∃ p, s.keys[h]? = some p ∧ s.eraseMap[p]? = some h ∧ p < s.elements.length ∧
      h < s.keys.length := by
  rcases hi with ⟨_, hl⟩ | ⟨free, hc⟩
  · subst hl
    exact absurd hh (List.not_mem_nil h)
  · obtain ⟨p, hp, hb⟩ := hc.fwd h hh
    exact ⟨p, hp, hb, hc.lenEq ▸ lt_of_getElem?_some hb, lt_of_getElem?_some hp⟩

/-- Every position of the value storage is owned by a handle in use. -/
theorem Inv.owner {T : Type} {s : Slotmap T} {live : List Nat} (hi : Inv s live)
    {p h : Nat} (hp : s.eraseMap[p]? = some h) : h ∈ live ∧ s.keys[h]? = some p := by
  rcases hi with ⟨hs, _⟩ | ⟨free, hc⟩
  · subst hs
    simp [Slotmap.empty] at hp
  · exact hc.bwd p h hp

/-- The value storage and the reverse map have the same length. -/
theorem Inv.lenEq {T : Type} {s : Slotmap T} {live : List Nat} (hi : Inv s live) :
    s.elements.length = s.eraseMap.length := by
  rcases hi with ⟨hs, _⟩ | ⟨free, hc⟩
  · subst hs
    rfl
  · exact hc.lenEq

/-- The handles in use are as many as the stored values. -/
theorem Inv.liveLen {T : Type} {s : Slotmap T} {live : List Nat} (hi : Inv s live) :
    live.length = s.elements.length := by
  rcases hi with ⟨hs, hl⟩ | ⟨free, hc⟩
  · subst hs
    subst hl
    rfl
  · exact hc.liveLen

/-- No handle is in use twice. -/
theorem Inv.liveNodup {T : Type} {s : Slotmap T} {live : List Nat} (hi : Inv s live) :
    live.Nodup := by
  rcases hi with ⟨_, hl⟩ | ⟨free, hc⟩
  · subst hl
    exact List.nodup_nil
  · exact hc.liveNodup

/-- The value `elementAt` returns when both assertions hold. -/
theorem elementAt_eq {T : Type} {s : Slotmap T} {h p : Nat}
    (hp : s.keys[h]? = some p) (hb : s.eraseMap[p]? = some h) :
    elementAt s h = s.elements[p]? := by
  have hlt : h < s.keys.length := lt_of_getElem?_some hp
  simp [elementAt, hlt, hp, hb]

/-- The value `elementAt` returns for a handle in use exists. -/
theorem Inv.elementAt_some {T : Type} {s : Slotmap T} {live : List Nat} (hi : Inv s live)
    {h : Nat} (hh : h ∈ live) :
    ∃ p x, s.keys[h]? = some p ∧ s.elements[p]? = some x ∧ elementAt s h = some x := by
  obtain ⟨p, hp, hb, hlt, _⟩ := hi.lookup hh
  refine ⟨p, s.elements.get ⟨p, hlt⟩, hp, List.getElem?_eq_getElem hlt, ?_⟩
  rw [elementAt_eq hp hb]
  exact List.getElem?_eq_getElem hlt

/-- The step `addElement` keeps every handle in use and the value it resolves to. -/
theorem Inv.add_stable {T : Type} {s : Slotmap T} {live : List Nat} (hi : Inv s live)
    {h : Nat} (hh : h ∈ live) (v : T) :
    ∃ s2 live2, step (s, live) (Op.add v) = some (s2, live2) ∧ h ∈ live2 ∧
      elementAt s2 h = elementAt s h := by
  obtain ⟨s2, free2, ha, hc2, _, hel, her, _, hk, _⟩ := addElement_inv hi v
  obtain ⟨p, hp, hb, hlt, _⟩ := hi.lookup hh
  have hstep : step (s, live) (Op.add v) = some (s2, s.freeKeyHead :: live) := by
    simp [Slotmap.step, ha]
  refine ⟨s2, s.freeKeyHead :: live, hstep, List.mem_cons_of_mem _ hh, ?_⟩
  have hp2 : s2.keys[h]? = some p := (hk h hh).trans hp
  have hb2 : s2.eraseMap[p]? = some h := by
    rw [her]
    exact (getElem?_concat_some _ _ _ _).2 (Or.inl hb)
  rw [elementAt_eq hp2 hb2, elementAt_eq hp hb, hel, List.getElem?_append_left hlt]

/-- The step `removeElement` of another handle keeps a handle in use and the
value it resolves to. -/
theorem Inv.remove_stable {T : Type} {s : Slotmap T} {live : List Nat} (hi : Inv s live)
    {h h2 : Nat} (hh : h ∈ live) (hh2 : h2 ∈ live) (hne : h2 ≠ h) :
    ∃ s2 live2, step (s, live) (Op.remove h2) = some (s2, live2) ∧ h ∈ live2 ∧
      elementAt s2 h = elementAt s h := by
  obtain ⟨p2, lastH, lastV, free, s2, hp2, hb2, hp2N, hlastV, hlastH, hlastL, hlastK, htl, htlt,
    hc, hr, hel, hke, her, _, _, hc2⟩ := removeElement_inv hi hh2
  obtain ⟨p, hp, hb, hlt, hhlt⟩ := hi.lookup hh
  have hmem : h ∈ live.erase h2 := (hc.liveNodup.mem_erase_iff).2 ⟨Ne.symm hne, hh⟩
  have hstep : step (s, live) (Op.remove h2) = some (s2, live.erase h2) := by
    simp [Slotmap.step, hh2, hr]
  refine ⟨s2, live.erase h2, hstep, hmem, ?_⟩
  have hht : h ≠ s.freeKeyTail := fun e => htl (e ▸ hh)
  have hkeys := keys_after_remove s.keys p2 (lt_of_getElem?_some hlastK) htlt
    (lt_of_getElem?_some hp2) h
  have hpE : p2 < s.eraseMap.length := lt_of_getElem?_some hb2
  have hpp : p ≠ p2 := by
    intro e
    rw [e, hb2] at hb
    exact hne (Option.some.inj hb)
  have herase := set_eraseIdx_last_get s.eraseMap lastH hpE
  rw [← hc.lenEq] at herase
  by_cases hl : h = lastH
  · subst hl
    have hpl : p = s.elements.length - 1 := Option.some.inj (hp.symm.trans hlastK)
    have hp2lt : p2 < s.elements.length - 1 := by omega
    have hk3 : s2.keys[h]? = some p2 := by
      rw [hke, hkeys]
      simp [Ne.symm hne, hht]
    have he3 : s2.eraseMap[p2]? = some h := by
      rw [her, herase]
      simp [hp2lt]
    rw [elementAt_eq hk3 he3, elementAt_eq hp hb, hel,
      set_eraseIdx_last_get s.elements lastV hp2N p2, hpl, hlastV]
    simp [hp2lt]
  · have hpl : p ≠ s.elements.length - 1 := by
      intro e
      rw [e, hlastH] at hb
      exact hl (Option.some.inj hb).symm
    have hplt : p < s.elements.length - 1 := by omega
    have hk3 : s2.keys[h]? = some p := by
      rw [hke, hkeys]
      simp [Ne.symm hne, hht, hl, hp]
    have he3 : s2.eraseMap[p]? = some h := by
      rw [her, herase]
      simp [hplt, hpp, hb]
    rw [elementAt_eq hk3 he3, elementAt_eq hp hb, hel,
      set_eraseIdx_last_get s.elements lastV hp2N p]
    simp [hplt, hpp]

/-- A sequence of insertions and of removals of other handles keeps a handle
in use and the value it resolves to. -/
theorem Inv.run_stable {T : Type} (h : Nat) :
    ∀ (ops : List (Op T)) {s s2 : Slotmap T} {live live2 : List Nat}, Inv s live → h ∈ live →
      (∀ op ∈ ops, op ≠ Op.clear ∧ op ≠ Op.remove h) →
      runFrom (s, live) ops = some (s2, live2) →
      h ∈ live2 ∧ elementAt s2 h = elementAt s h
  | [], s, s2, live, live2, _, hh, _, hr => by
    simp only [Slotmap.runFrom, Option.some.injEq, Prod.mk.injEq] at hr
    obtain ⟨h1, h2⟩ := hr
    subst h1
    subst h2
    exact ⟨hh, rfl⟩
  | op :: ops, s, s2, live, live2, hi, hh, hops, hr => by
    simp only [Slotmap.runFrom] at hr
    cases hst : Slotmap.step (s, live) op with
    | none => simp [hst] at hr
    | some st1 =>
      obtain ⟨s1, live1⟩ := st1
      rw [hst] at hr
      have hrest : ∀ o ∈ ops, o ≠ Op.clear ∧ o ≠ Op.remove h :=
        fun o ho => hops o (List.mem_cons_of_mem _ ho)
      have hop := hops op (List.mem_cons_self _ _)
      have hi1 : Inv s1 live1 := hi.step_preserved op hst
      have hone : h ∈ live1 ∧ elementAt s1 h = elementAt s h := by
        cases op with
        | add v =>
          obtain ⟨s3, live3, hs3, hm3, he3⟩ := hi.add_stable hh v
          rw [hs3] at hst
          simp only [Option.some.injEq, Prod.mk.injEq] at hst
          obtain ⟨e1, e2⟩ := hst
          subst e1
          subst e2
          exact ⟨hm3, he3⟩
        | remove h2 =>
          have hne : h2 ≠ h := fun e => hop.2 (e ▸ rfl)
          by_cases hh2 : h2 ∈ live
          · obtain ⟨s3, live3, hs3, hm3, he3⟩ := hi.remove_stable hh hh2 hne
            rw [hs3] at hst
            simp only [Option.some.injEq, Prod.mk.injEq] at hst
            obtain ⟨e1, e2⟩ := hst
            subst e1
            subst e2
            exact ⟨hm3, he3⟩
          · simp [Slotmap.step, hh2] at hst
        | clear => exact absurd rfl hop.1
      obtain ⟨hm, he⟩ := Inv.run_stable h ops hi1 hone.1 hrest hr
      exact ⟨hm, he.trans hone.2⟩

/-- The cursor `find` returns for a handle inside the handle table. -/
theorem find_eq {T : Type} {s : Slotmap T} {h p : Nat} (hp : s.keys[h]? = some p) :
    find s h = p := by
  obtain ⟨hlt, hget⟩ := List.getElem?_eq_some.mp hp
  have hnot : ¬ h ≥ s.keys.length := by omega
  simp only [Slotmap.find, hnot, dite_false, List.get_eq_getElem]
  exact hget

/-- The loop from a cursor not past `end()` visits the cursors up to `end()`
and stops, given enough fuel. -/
theorem traverseFrom_eq {T : Type} (s : Slotmap T) :
    ∀ (fuel it : Nat), it ≤ end_ s → end_ s - it ≤ fuel →
      traverseFrom s fuel it = some (List.range' it (end_ s - it))
  | 0, it, hle, hf => by
    have : it = end_ s := by omega
    simp [Slotmap.traverseFrom, this]
  | fuel + 1, it, hle, hf => by
    by_cases he : it = end_ s
    · simp [Slotmap.traverseFrom, he]
    · have hlt : it < end_ s := by omega
      have hrec := traverseFrom_eq s fuel (it + 1) (by omega) (by omega)
      have hsplit : end_ s - it = (end_ s - (it + 1)) + 1 := by omega
      simp only [Slotmap.traverseFrom, he, if_false, hrec, Option.map_some']
      rw [hsplit, List.range'_succ]

/-- A run of a sequence followed by another is the run of the second from the
result of the first. -/
theorem runFrom_append {T : Type} :
    ∀ (ops1 ops2 : List (Op T)) (st : Slotmap T × List Nat),
      runFrom st (ops1 ++ ops2) = (runFrom st ops1).bind fun st1 => runFrom st1 ops2
  | [], _, _ => rfl
  | op :: ops1, ops2, st => by
    simp only [List.cons_append, Slotmap.runFrom]
    cases Slotmap.step st op with
    | none => rfl
    | some st1 => exact runFrom_append ops1 ops2 st1

/-- A client operation fails only when it removes a handle that is not in
use. -/
theorem Inv.step_eq_none_iff {T : Type} {s : Slotmap T} {live : List Nat} (hi : Inv s live)
    (op : Op T) : step (s, live) op = none ↔ ∃ h, op = Op.remove h ∧ h ∉ live := by
  cases op with
  | add v =>
    obtain ⟨s2, _, ha, _⟩ := addElement_inv hi v
    simp [Slotmap.step, ha]
  | remove h =>
    by_cases hh : h ∈ live
    · obtain ⟨_, _, _, _, s2, _, _, _, _, _, _, _, _, _, _, hr, _⟩ := removeElement_inv hi hh
      simp [Slotmap.step, hh, hr]
    · simp [Slotmap.step, hh]
  | clear => simp [Slotmap.step]

/-- Every insertion adds one to `size()` and every removal takes one off. -/
theorem Inv.run_count {T : Type} :
    ∀ (ops : List (Op T)) {s s2 : Slotmap T} {live live2 : List Nat}, Inv s live →
      noClear ops = true → runFrom (s, live) ops = some (s2, live2) →
      size s2 + countRemove ops = size s + countAdd ops
  | [], s, s2, live, live2, _, _, hr => by
    simp only [Slotmap.runFrom, Option.some.injEq, Prod.mk.injEq] at hr
    obtain ⟨h1, _⟩ := hr
    subst h1
    rfl
  | op :: ops, s, s2, live, live2, hi, hnc, hr => by
    simp only [Slotmap.runFrom] at hr
    cases hst : Slotmap.step (s, live) op with
    | none => simp [hst] at hr
    | some st1 =>
      obtain ⟨s1, live1⟩ := st1
      rw [hst] at hr
      have hi1 : Inv s1 live1 := hi.step_preserved op hst
      cases op with
      | add v =>
        have hrec := Inv.run_count ops hi1 (by simpa [Slotmap.noClear] using hnc) hr
        obtain ⟨s3, _, ha, _, _, hel, _⟩ := addElement_inv hi v
        simp only [Slotmap.step, ha, Option.map_some', Option.some.injEq, Prod.mk.injEq] at hst
        obtain ⟨e1, _⟩ := hst
        subst e1
        have hsz : size s3 = size s + 1 := by simp [Slotmap.size, hel]
        simp only [Slotmap.countAdd, Slotmap.countRemove]
        omega
      | remove h =>
        have hrec := Inv.run_count ops hi1 (by simpa [Slotmap.noClear] using hnc) hr
        by_cases hh : h ∈ live
        · obtain ⟨p, _, lastV, _, s3, _, _, hpN, _, _, _, _, _, _, _, hrm, hel, _⟩ :=
            removeElement_inv hi hh
          simp only [Slotmap.step, hh, if_true, hrm, Option.map_some', Option.some.injEq,
            Prod.mk.injEq] at hst
          obtain ⟨e1, _⟩ := hst
          subst e1
          have hN : s.elements.length - 1 < s.elements.length := by omega
          have hsz : size s3 + 1 = size s := by
            simp only [Slotmap.size, hel]
            rw [List.length_eraseIdx, List.length_set, if_pos hN]
            omega
          simp only [Slotmap.countAdd, Slotmap.countRemove]
          omega
        · simp [Slotmap.step, hh] at hst
      | clear => simp [Slotmap.noClear] at hnc

/-- An initial part of a sequence without `clear` has no `clear`. -/
theorem noClear_of_append {T : Type} :
    ∀ (pre suf : List (Op T)), noClear (pre ++ suf) = true → noClear pre = true
  | [], _, _ => rfl
  | Op.add _ :: pre, suf, h => by
    simp only [List.cons_append, Slotmap.noClear] at h ⊢
    exact noClear_of_append pre suf h
  | Op.remove _ :: pre, suf, h => by
    simp only [List.cons_append, Slotmap.noClear] at h ⊢
    exact noClear_of_append pre suf h
  | Op.clear :: pre, suf, h => by
    simp [Slotmap.noClear] at h

/-! ## The contract -/

/-- C1. Insert/lookup round trip: in every reachable state `addElement(v)`
returns a handle, and `elementAt` of that handle in the resulting state
passes its assertions and returns `v`. -/
theorem insert_lookup_roundtrip {T : Type} (s : Slotmap T) (live : List Nat)
    (hr : Reachable s live) (v : T) :
    ∃ s2 h, addElement s v = some (s2, h) ∧ elementAt s2 h = some v := by
  obtain ⟨s2, free2, ha, _, _, hel, her, hk, _, hlen⟩ := addElement_inv hr.inv v
  refine ⟨s2, s.freeKeyHead, ha, ?_⟩
  have hb : s2.eraseMap[s.elements.length]? = some s.freeKeyHead := by
    rw [her, hlen]
    exact List.getElem?_concat_length _ _
  rw [elementAt_eq hk hb, hel]
  exact List.getElem?_concat_length _ _

/-- Witness of C1 on the state after three insertions and one removal. -/
theorem insert_lookup_roundtrip_witness :
    Reachable sampleRemoved [2, 1] ∧
      ∃ s2 h, addElement sampleRemoved 40 = some (s2, h) ∧ elementAt s2 h = some 40 :=
  have hr : Reachable sampleRemoved [2, 1] :=
    ⟨[Op.add 10, Op.add 20, Op.add 30, Op.remove 0], by decide⟩
  ⟨hr, insert_lookup_roundtrip sampleRemoved [2, 1] hr 40⟩

/-- C2. Handle stability: in every reachable state a handle `h` in use
resolves to a value; after `addElement(v)`, and after `removeElement(h2)` of
another handle in use, `h` is still in use and `elementAt(h)` returns what it
returned before; and so after every sequence of insertions and of removals of
other handles. -/
theorem handle_stability {T : Type} (s : Slotmap T) (live : List Nat) (h : Nat)
    (hr : Reachable s live) (hh : h ∈ live) :
    (∃ x, elementAt s h = some x) ∧
    (∀ v : T, ∃ s2 live2, step (s, live) (Op.add v) = some (s2, live2) ∧ h ∈ live2 ∧
      elementAt s2 h = elementAt s h) ∧
    (∀ h2, h2 ∈ live → h2 ≠ h →
      ∃ s2 live2, step (s, live) (Op.remove h2) = some (s2, live2) ∧ h ∈ live2 ∧
        elementAt s2 h = elementAt s h) ∧
    (∀ (ops : List (Op T)) s2 live2, (∀ op ∈ ops, op ≠ Op.clear ∧ op ≠ Op.remove h) →
      runFrom (s, live) ops = some (s2, live2) →
      h ∈ live2 ∧ elementAt s2 h = elementAt s h) := by
  have hi := hr.inv
  refine ⟨?_, fun v => hi.add_stable hh v, fun h2 hh2 hne => hi.remove_stable hh hh2 hne, ?_⟩
  · obtain ⟨p, x, _, _, hx⟩ := hi.elementAt_some hh
    exact ⟨x, hx⟩
  · intro ops s2 live2 hops hrun
    exact Inv.run_stable h ops hi hh hops hrun

/-- Witness of C2 on the state after three insertions, for the handle 1. -/
theorem handle_stability_witness :
    Reachable sampleThree [2, 1, 0] ∧ 1 ∈ [2, 1, 0] ∧
    (∃ x, elementAt sampleThree 1 = some x) ∧
    (∀ v : Nat, ∃ s2 live2, step (sampleThree, [2, 1, 0]) (Op.add v) = some (s2, live2) ∧
      1 ∈ live2 ∧ elementAt s2 1 = elementAt sampleThree 1) ∧
    (∀ h2, h2 ∈ [2, 1, 0] → h2 ≠ 1 →
      ∃ s2 live2, step (sampleThree, [2, 1, 0]) (Op.remove h2) = some (s2, live2) ∧
        1 ∈ live2 ∧ elementAt s2 1 = elementAt sampleThree 1) ∧
    (∀ (ops : List (Op Nat)) s2 live2, (∀ op ∈ ops, op ≠ Op.clear ∧ op ≠ Op.remove 1) →
      runFrom (sampleThree, [2, 1, 0]) ops = some (s2, live2) →
      1 ∈ live2 ∧ elementAt s2 1 = elementAt sampleThree 1) :=
  have hr : Reachable sampleThree [2, 1, 0] := ⟨[Op.add 10, Op.add 20, Op.add 30], by decide⟩
  have hm : 1 ∈ [2, 1, 0] := by decide
  ⟨hr, hm, handle_stability sampleThree [2, 1, 0] 1 hr hm⟩

/-- C3. Insert returns a fresh handle: in every reachable state the handle
`addElement(v)` returns is not in use before the call and is in use after it. -/
theorem insert_returns_fresh_handle {T : Type} (s : Slotmap T) (live : List Nat)
    (hr : Reachable s live) (v : T) :
    ∃ s2 h live2, addElement s v = some (s2, h) ∧ h ∉ live ∧
      step (s, live) (Op.add v) = some (s2, live2) ∧ h ∈ live2 := by
  obtain ⟨s2, free2, ha, _, hfresh, _⟩ := addElement_inv hr.inv v
  have hstep : step (s, live) (Op.add v) = some (s2, s.freeKeyHead :: live) := by
    simp [Slotmap.step, ha]
  exact ⟨s2, s.freeKeyHead, s.freeKeyHead :: live, ha, hfresh, hstep, List.mem_cons_self _ _⟩

/-- Witness of C3 on the state after three insertions and one removal. -/
theorem insert_returns_fresh_handle_witness :
    Reachable sampleRemoved [2, 1] ∧
      ∃ s2 h live2, addElement sampleRemoved 40 = some (s2, h) ∧ h ∉ [2, 1] ∧
        step (sampleRemoved, [2, 1]) (Op.add 40) = some (s2, live2) ∧ h ∈ live2 :=
  have hr : Reachable sampleRemoved [2, 1] :=
    ⟨[Op.add 10, Op.add 20, Op.add 30, Op.remove 0], by decide⟩
  ⟨hr, insert_returns_fresh_handle sampleRemoved [2, 1] hr 40⟩

/-- C4. Swap-remove effect on storage: in every reachable state with
`N = size()`, `removeElement` of a handle in use at position `p` leaves `N - 1`
values, puts the value of position `N - 1` at `p` when `p < N - 1`, and leaves
every other position below `N - 1` alone; the reverse map changes the same
way. After inserting A, B, C and removing the handle of A, `size()` is 2 and
the handles of B and C resolve to B and C. -/
theorem swap_remove_storage {T : Type} :
    (∀ (s : Slotmap T) (live : List Nat) (h : Nat), Reachable s live → h ∈ live →
      ∃ p s2, s.keys[h]? = some p ∧ p < size s ∧ removeElement s h = some s2 ∧
        s2.elements.length = size s - 1 ∧ s2.eraseMap.length = size s - 1 ∧
        (p < size s - 1 → s2.elements[p]? = s.elements[size s - 1]? ∧
          s2.eraseMap[p]? = s.eraseMap[size s - 1]?) ∧
        (∀ q, q < size s - 1 → q ≠ p →
          s2.elements[q]? = s.elements[q]? ∧ s2.eraseMap[q]? = s.eraseMap[q]?)) ∧
    (∀ A B C : T, ∃ s1 s2 s3 s4 hA hB hC,
      addElement (empty T) A = some (s1, hA) ∧ addElement s1 B = some (s2, hB) ∧
      addElement s2 C = some (s3, hC) ∧ removeElement s3 hA = some s4 ∧
      size s4 = 2 ∧ elementAt s4 hB = some B ∧ elementAt s4 hC = some C) := by
  constructor
  · intro s live h hr hh
    obtain ⟨p, lastH, lastV, free, s2, hp, hb, hpN, hlastV, hlastH, _, _, _, _, hc, hrm, hel,
      _, her, _, _, _⟩ := removeElement_inv hr.inv hh
    have hpE : p < s.eraseMap.length := lt_of_getElem?_some hb
    have hN : s.elements.length - 1 < s.elements.length := by omega
    have hNE : s.elements.length - 1 < s.eraseMap.length := hc.lenEq ▸ hN
    have hge := set_eraseIdx_last_get s.elements lastV hpN
    have hgm := set_eraseIdx_last_get s.eraseMap lastH hpE
    rw [← hc.lenEq] at hgm
    refine ⟨p, s2, hp, hpN, hrm, ?_, ?_, ?_, ?_⟩
    · rw [hel, List.length_eraseIdx, List.length_set, if_pos hN]
      rfl
    · rw [her, List.length_eraseIdx, List.length_set, if_pos hNE, ← hc.lenEq]
      rfl
    · intro hlt
      have hlt2 : p < s.elements.length - 1 := hlt
      constructor
      · show s2.elements[p]? = s.elements[s.elements.length - 1]?
        rw [hel, hge, hlastV]
        simp [hlt2]
      · show s2.eraseMap[p]? = s.eraseMap[s.elements.length - 1]?
        rw [her, hgm, hlastH]
        simp [hlt2]
    · intro q hq hqp
      have hq2 : q < s.elements.length - 1 := hq
      constructor
      · rw [hel, hge]
        simp [hq2, hqp]
      · rw [her, hgm]
        simp [hq2, hqp]
  · intro A B C
    exact ⟨{ elements := [A], keys := [0, 1], eraseMap := [0], freeKeyHead := 1,
             freeKeyTail := 1 },
      { elements := [A, B], keys := [0, 1, 2], eraseMap := [0, 1], freeKeyHead := 2,
        freeKeyTail := 2 },
      { elements := [A, B, C], keys := [0, 1, 2, 3], eraseMap := [0, 1, 2], freeKeyHead := 3,
        freeKeyTail := 3 },
      { elements := [C, B], keys := [0, 1, 0, 0], eraseMap := [2, 1], freeKeyHead := 3,
        freeKeyTail := 0 },
      0, 1, 2, rfl, rfl, rfl, rfl, rfl, rfl, rfl⟩

/-- Witness of C4 on the state after three insertions, for the handle 0. -/
theorem swap_remove_storage_witness :
    Reachable sampleThree [2, 1, 0] ∧ 0 ∈ [2, 1, 0] ∧
      ∃ p s2, sampleThree.keys[0]? = some p ∧ p < size sampleThree ∧
        removeElement sampleThree 0 = some s2 ∧
        s2.elements.length = size sampleThree - 1 ∧
        s2.eraseMap.length = size sampleThree - 1 ∧
        (p < size sampleThree - 1 →
          s2.elements[p]? = sampleThree.elements[size sampleThree - 1]? ∧
          s2.eraseMap[p]? = sampleThree.eraseMap[size sampleThree - 1]?) ∧
        (∀ q, q < size sampleThree - 1 → q ≠ p →
          s2.elements[q]? = sampleThree.elements[q]? ∧
          s2.eraseMap[q]? = sampleThree.eraseMap[q]?) :=
  have hr : Reachable sampleThree [2, 1, 0] := ⟨[Op.add 10, Op.add 20, Op.add 30], by decide⟩
  have hm : 0 ∈ [2, 1, 0] := by decide
  ⟨hr, hm, swap_remove_storage.1 sampleThree [2, 1, 0] 0 hr hm⟩

/-- C5. Size accounting: for a sequence of `addElement` calls and of
`removeElement` calls on handles in use, run from the constructed slotmap,
after every prefix `size()` is the number of insertions minus the number of
removals of the prefix, and is the number of handles in use. -/
theorem size_accounting {T : Type} (ops : List (Op T))
    (st : Slotmap T × List Nat) (hnc : noClear ops = true) (hrun : run ops = some st) :
    ∀ pre, pre <+: ops →
      ∃ s live, run pre = some (s, live) ∧
        countRemove pre ≤ countAdd pre ∧ size s = countAdd pre - countRemove pre ∧
        size s = live.length ∧ live.Nodup := by
  intro pre hpre
  obtain ⟨suf, hsuf⟩ := hpre
  subst hsuf
  have hsplit := runFrom_append pre suf (empty T, [])
  cases hp : runFrom (empty T, []) pre with
  | none =>
    rw [hp] at hsplit
    simp only [Slotmap.run] at hrun
    rw [hsplit] at hrun
    simp at hrun
  | some st1 =>
    obtain ⟨s, live⟩ := st1
    have hi : Inv s live := Inv.run_preserved pre (Inv.init T) hp
    have hcount := Inv.run_count pre (Inv.init T) (noClear_of_append pre suf hnc) hp
    have h0 : size (empty T) = 0 := rfl
    refine ⟨s, live, hp, by omega, by omega, ?_, hi.liveNodup⟩
    exact hi.liveLen.symm

/-- Witness of C5 on three insertions and one removal, for the prefix of the
three insertions. -/
theorem size_accounting_witness :
    noClear [Op.add 10, Op.add 20, Op.add 30, Op.remove 0] = true ∧
    run [Op.add 10, Op.add 20, Op.add 30, Op.remove 0] = some (sampleRemoved, [2, 1]) ∧
    [Op.add 10, Op.add 20, Op.add 30] <+: [Op.add 10, Op.add 20, Op.add 30, Op.remove 0] ∧
    ∃ s live, run [Op.add 10, Op.add 20, Op.add 30] = some (s, live) ∧
      countRemove [Op.add (10 : Nat), Op.add 20, Op.add 30] ≤
        countAdd [Op.add (10 : Nat), Op.add 20, Op.add 30] ∧
      size s = countAdd [Op.add (10 : Nat), Op.add 20, Op.add 30] -
        countRemove [Op.add (10 : Nat), Op.add 20, Op.add 30] ∧
      size s = live.length ∧ live.Nodup :=
  have hnc : noClear [Op.add 10, Op.add 20, Op.add 30, Op.remove 0] = true := by decide
  have hrun : run [Op.add 10, Op.add 20, Op.add 30, Op.remove 0]
      = some (sampleRemoved, [2, 1]) := by decide
  have hpre : [Op.add 10, Op.add 20, Op.add 30] <+:
      [Op.add 10, Op.add 20, Op.add 30, Op.remove 0] := ⟨[Op.remove 0], rfl⟩
  ⟨hnc, hrun, hpre, size_accounting _ _ hnc hrun _ hpre⟩

/-- C6. Iteration completeness: in every reachable state the loop from
`begin()` to `end()` visits the positions `0 .. size() - 1` and stops; the
handle of each visited cursor is in use and `elementAt` of it returns the
value under the cursor; distinct cursors have distinct handles, and every
handle in use is the handle of a visited cursor. -/
theorem iteration_complete {T : Type} (s : Slotmap T) (live : List Nat)
    (hr : Reachable s live) :
    (∀ fuel, size s ≤ fuel →
      traverseFrom s fuel (begin_ s) = some (List.range (size s))) ∧
    (List.range (size s)).length = size s ∧
    (∀ it, it ∈ List.range (size s) →
      ∃ h x, handle s it = some h ∧ h ∈ live ∧ deref s it = some x ∧
        elementAt s h = some x) ∧
    (∀ it1 it2, it1 ∈ List.range (size s) → it2 ∈ List.range (size s) →
      handle s it1 = handle s it2 → it1 = it2) ∧
    (∀ h, h ∈ live → ∃ it, it ∈ List.range (size s) ∧ handle s it = some h) := by
  have hi := hr.inv
  have hlen := hi.lenEq
  refine ⟨?_, List.length_range _, ?_, ?_, ?_⟩
  · intro fuel hf
    have := traverseFrom_eq s fuel 0 (Nat.zero_le _) (by simpa [Slotmap.end_, Slotmap.size] using hf)
    simpa [Slotmap.begin_, Slotmap.end_, Slotmap.size, List.range_eq_range'] using this
  · intro it hit
    have hlt : it < s.elements.length := by simpa [Slotmap.size] using hit
    have hltE : it < s.eraseMap.length := hlen ▸ hlt
    have hh : s.eraseMap[it]? = some (s.eraseMap.get ⟨it, hltE⟩) := List.getElem?_eq_getElem hltE
    obtain ⟨hl, hk⟩ := hi.owner hh
    refine ⟨_, s.elements.get ⟨it, hlt⟩, hh, hl, List.getElem?_eq_getElem hlt, ?_⟩
    rw [elementAt_eq hk hh]
    exact List.getElem?_eq_getElem hlt
  · intro it1 it2 h1 h2 he
    have hlt1 : it1 < s.eraseMap.length := by
      rw [← hlen]
      simpa [Slotmap.size] using h1
    have hh1 : s.eraseMap[it1]? = some (s.eraseMap.get ⟨it1, hlt1⟩) :=
      List.getElem?_eq_getElem hlt1
    have hh2 : s.eraseMap[it2]? = some (s.eraseMap.get ⟨it1, hlt1⟩) := by
      rw [← hh1]
      exact he.symm
    have k1 := (hi.owner hh1).2
    have k2 := (hi.owner hh2).2
    exact Option.some.inj (k1.symm.trans k2)
  · intro h hh
    obtain ⟨p, _, hb, hlt, _⟩ := hi.lookup hh
    exact ⟨p, by simpa [Slotmap.size] using hlt, hb⟩

/-- Witness of C6 on the state after three insertions and one removal. -/
theorem iteration_complete_witness :
    Reachable sampleRemoved [2, 1] ∧
    (∀ fuel, size sampleRemoved ≤ fuel →
      traverseFrom sampleRemoved fuel (begin_ sampleRemoved)
        = some (List.range (size sampleRemoved))) ∧
    (List.range (size sampleRemoved)).length = size sampleRemoved ∧
    (∀ it, it ∈ List.range (size sampleRemoved) →
      ∃ h x, handle sampleRemoved it = some h ∧ h ∈ [2, 1] ∧ deref sampleRemoved it = some x ∧
        elementAt sampleRemoved h = some x) ∧
    (∀ it1 it2, it1 ∈ List.range (size sampleRemoved) → it2 ∈ List.range (size sampleRemoved) →
      handle sampleRemoved it1 = handle sampleRemoved it2 → it1 = it2) ∧
    (∀ h, h ∈ [2, 1] → ∃ it, it ∈ List.range (size sampleRemoved) ∧
      handle sampleRemoved it = some h) :=
  have hr : Reachable sampleRemoved [2, 1] :=
    ⟨[Op.add 10, Op.add 20, Op.add 30, Op.remove 0], by decide⟩
  ⟨hr, iteration_complete sampleRemoved [2, 1] hr⟩

/-- C7, as stated, fails: after inserting 10, 20, 30 (handles 0, 1, 2) and
removing the handle 0, `addElement(40)` returns the handle 3, not 0; the
handle 0 is then still free, `elementAt(0)` fails its assertion, and without
the assertion it reads 30. -/
theorem handle_reuse_counterexample :
    (addElement (empty Nat) 10 = some (sampleOne, 0) ∧
      addElement sampleOne 20 = some (sampleTwo, 1) ∧
      addElement sampleTwo 30 = some (sampleThree, 2) ∧
      removeElement sampleThree 0 = some sampleRemoved ∧
      addElement sampleRemoved 40 = some (sampleReused, 3) ∧
      elementAt sampleReused 0 = none ∧
      elementAtUnchecked sampleReused 0 = some 30) ∧
    ¬ (∃ s1 s2 s3 s4 s5 hA hB hC hD,
        addElement (empty Nat) 10 = some (s1, hA) ∧ addElement s1 20 = some (s2, hB) ∧
        addElement s2 30 = some (s3, hC) ∧ removeElement s3 hA = some s4 ∧
        addElement s4 40 = some (s5, hD) ∧ hD = hA ∧ elementAt s5 hA = some 40) := by
  have h1v : addElement (empty Nat) 10 = some (sampleOne, 0) := by decide
  have h2v : addElement sampleOne 20 = some (sampleTwo, 1) := by decide
  have h3v : addElement sampleTwo 30 = some (sampleThree, 2) := by decide
  have h4v : removeElement sampleThree 0 = some sampleRemoved := by decide
  have h5v : addElement sampleRemoved 40 = some (sampleReused, 3) := by decide
  refine ⟨⟨h1v, h2v, h3v, h4v, h5v, by decide, by decide⟩, ?_⟩
  rintro ⟨s1, s2, s3, s4, s5, hA, hB, hC, hD, h1, h2, h3, h4, h5, h6, _⟩
  rw [h1v] at h1
  simp only [Option.some.injEq, Prod.mk.injEq] at h1
  obtain ⟨e1, eA⟩ := h1
  subst e1
  subst eA
  rw [h2v] at h2
  simp only [Option.some.injEq, Prod.mk.injEq] at h2
  obtain ⟨e2, eB⟩ := h2
  subst e2
  subst eB
  rw [h3v] at h3
  simp only [Option.some.injEq, Prod.mk.injEq] at h3
  obtain ⟨e3, eC⟩ := h3
  subst e3
  subst eC
  rw [h4v] at h4
  simp only [Option.some.injEq] at h4
  subst h4
  rw [h5v] at h5
  simp only [Option.some.injEq, Prod.mk.injEq] at h5
  obtain ⟨_, eD⟩ := h5
  omega

/-- C7, amended. After inserting A, B, C (handles hA, hB, hC) and removing hA,
`addElement(D)` returns the handle 3, the free slot that was at the head of
the free list, which differs from hA, hB and hC, and `elementAt` of it is D;
the `addElement(E)` after that returns hA, and `elementAt(hA)` is E. -/
theorem handle_reuse_after_one_insertion {T : Type} (A B C D E : T) :
    ∃ s1 s2 s3 s4 s5 s6 hA hB hC hD hE,
      addElement (empty T) A = some (s1, hA) ∧ addElement s1 B = some (s2, hB) ∧
      addElement s2 C = some (s3, hC) ∧ removeElement s3 hA = some s4 ∧
      addElement s4 D = some (s5, hD) ∧ hD = 3 ∧ hD ≠ hA ∧ hD ≠ hB ∧ hD ≠ hC ∧
      elementAt s5 hD = some D ∧
      addElement s5 E = some (s6, hE) ∧ hE = hA ∧ elementAt s6 hA = some E :=
  ⟨{ elements := [A], keys := [0, 1], eraseMap := [0], freeKeyHead := 1, freeKeyTail := 1 },
    { elements := [A, B], keys := [0, 1, 2], eraseMap := [0, 1], freeKeyHead := 2,
      freeKeyTail := 2 },
    { elements := [A, B, C], keys := [0, 1, 2, 3], eraseMap := [0, 1, 2], freeKeyHead := 3,
      freeKeyTail := 3 },
    { elements := [C, B], keys := [0, 1, 0, 0], eraseMap := [2, 1], freeKeyHead := 3,
      freeKeyTail := 0 },
    { elements := [C, B, D], keys := [0, 1, 0, 2], eraseMap := [2, 1, 3], freeKeyHead := 0,
      freeKeyTail := 0 },
    { elements := [C, B, D, E], keys := [3, 1, 0, 2, 4], eraseMap := [2, 1, 3, 0],
      freeKeyHead := 4, freeKeyTail := 4 },
    0, 1, 2, 3, 0, rfl, rfl, rfl, rfl, rfl, rfl, by decide, by decide, by decide, rfl, rfl, rfl,
    rfl⟩

/-- C8. Clear resets fully: `clear()` on any state gives the state of a
constructed slotmap (the three vectors empty, `freeKeyHead` and
`freeKeyTail` zero); `size()` is then 0 and the next `addElement(x)` returns
what the first `addElement(x)` on a constructed slotmap returns. -/
theorem clear_resets_fully {T : Type} (s : Slotmap T) (x : T) :
    clear s = empty T ∧
    (clear s).elements = [] ∧ (clear s).keys = [] ∧ (clear s).eraseMap = [] ∧
    (clear s).freeKeyHead = 0 ∧ (clear s).freeKeyTail = 0 ∧
    size (clear s) = 0 ∧
    ∃ s2 h, addElement (clear s) x = some (s2, h) ∧ addElement (empty T) x = some (s2, h) :=
  ⟨rfl, rfl, rfl, rfl, rfl, rfl, rfl, _, 0, addElement_empty x, addElement_empty x⟩

/-- C9. The result of `find`: in every reachable state, for a handle `h` in
use `find(h)` differs from `end()`, points at position `keys[h] < size()`, and
the value under it is the one `elementAt(h)` returns; for a handle not below
the length of the handle table, as every handle is on a constructed or
cleared slotmap, `find` returns `end()`. -/
theorem find_result {T : Type} (s : Slotmap T) (live : List Nat) (hr : Reachable s live) :
    (∀ h, h ∈ live →
      find s h ≠ end_ s ∧ s.keys[h]? = some (find s h) ∧ find s h < size s ∧
        ∃ x, deref s (find s h) = some x ∧ elementAt s h = some x) ∧
    (∀ h, s.keys.length ≤ h → find s h = end_ s) ∧
    (∀ h, find (empty T) h = end_ (empty T)) ∧
    (∀ h, find (clear s) h = end_ (clear s)) := by
  refine ⟨?_, ?_, ?_, ?_⟩
  · intro h hh
    obtain ⟨p, hp, hb, hlt, _⟩ := hr.inv.lookup hh
    have hf : find s h = p := find_eq hp
    rw [hf]
    refine ⟨?_, hp, hlt, s.elements.get ⟨p, hlt⟩, List.getElem?_eq_getElem hlt, ?_⟩
    · show p ≠ s.elements.length
      omega
    · rw [elementAt_eq hp hb]
      exact List.getElem?_eq_getElem hlt
  · intro h hge
    simp [Slotmap.find, Slotmap.end_, hge]
  · intro h
    simp [Slotmap.find, Slotmap.end_, Slotmap.empty]
  · intro h
    simp [Slotmap.find, Slotmap.end_, Slotmap.clear]

/-- Witness of C9 on the state after three insertions and one removal. -/
theorem find_result_witness :
    Reachable sampleRemoved [2, 1] ∧
    (∀ h, h ∈ [2, 1] →
      find sampleRemoved h ≠ end_ sampleRemoved ∧
        sampleRemoved.keys[h]? = some (find sampleRemoved h) ∧
        find sampleRemoved h < size sampleRemoved ∧
        ∃ x, deref sampleRemoved (find sampleRemoved h) = some x ∧
          elementAt sampleRemoved h = some x) ∧
    (∀ h, sampleRemoved.keys.length ≤ h → find sampleRemoved h = end_ sampleRemoved) ∧
    (∀ h, find (empty Nat) h = end_ (empty Nat)) ∧
    (∀ h, find (clear sampleRemoved) h = end_ (clear sampleRemoved)) :=
  have hr : Reachable sampleRemoved [2, 1] :=
    ⟨[Op.add 10, Op.add 20, Op.add 30, Op.remove 0], by decide⟩
  ⟨hr, find_result sampleRemoved [2, 1] hr⟩

/-- C10. `handle` and `find` are mutually inverse on live data: in every
reachable state `handle(find(h))` is `h` for every handle `h` in use, and
`find(handle(it))` is `it` for every cursor with `begin() <= it < end()`. -/
theorem handle_find_inverse {T : Type} (s : Slotmap T) (live : List Nat)
    (hr : Reachable s live) :
    (∀ h, h ∈ live → handle s (find s h) = some h) ∧
    (∀ it, begin_ s ≤ it → it < end_ s → ∃ h, handle s it = some h ∧ find s h = it) := by
  have hi := hr.inv
  constructor
  · intro h hh
    obtain ⟨p, hp, hb, _, _⟩ := hi.lookup hh
    rw [find_eq hp]
    exact hb
  · intro it _ hlt
    have hltE : it < s.eraseMap.length := hi.lenEq ▸ hlt
    have hh : s.eraseMap[it]? = some (s.eraseMap.get ⟨it, hltE⟩) := List.getElem?_eq_getElem hltE
    exact ⟨_, hh, find_eq (hi.owner hh).2⟩

/-- Witness of C10 on the state after three insertions and one removal. -/
theorem handle_find_inverse_witness :
    Reachable sampleRemoved [2, 1] ∧
    (∀ h, h ∈ [2, 1] → handle sampleRemoved (find sampleRemoved h) = some h) ∧
    (∀ it, begin_ sampleRemoved ≤ it → it < end_ sampleRemoved →
      ∃ h, handle sampleRemoved it = some h ∧ find sampleRemoved h = it) :=
  have hr : Reachable sampleRemoved [2, 1] :=
    ⟨[Op.add 10, Op.add 20, Op.add 30, Op.remove 0], by decide⟩
  ⟨hr, handle_find_inverse sampleRemoved [2, 1] hr⟩

/-! ## The free chain -/

/-- The handle table has one entry for each handle in use and one for each
handle of the free chain. -/
theorem Core.keys_length {T : Type} {s : Slotmap T} {live free : List Nat}
    (hc : Core s live free) : s.keys.length = s.elements.length + free.length := by
  have hnd : (live ++ free).Nodup := by
    rw [List.nodup_append]
    refine ⟨hc.liveNodup, hc.freeNodup, ?_⟩
    intro a ha hb
    exact hc.disj a hb ha
  have hperm : (live ++ free).Perm (List.range s.keys.length) := by
    rw [List.perm_ext_iff_of_nodup hnd (List.nodup_range _)]
    intro a
    rw [List.mem_range, List.mem_append]
    exact (hc.dom a).symm
  have hlen := hperm.length_eq
  rw [List.length_append, List.length_range, hc.liveLen] at hlen
  exact hlen.symm

/-- The walk along a chain of distinct handles returns the chain, given one
unit of fuel for each handle. -/
theorem IsChain.walk {keys : List Nat} :
    ∀ {fr : List Nat} (fuel h : Nat), IsChain keys fr → fr.Nodup → fr.length ≤ fuel →
      fr.head? = some h → freeChainFrom keys fuel h = some fr
  | [], _, _, hc, _, _, _ => hc.elim
  | [t], 0, _, _, _, hf, _ => by simp at hf
  | [t], fuel + 1, h, hc, _, _, hh => by
    have ht : t = h := by simpa using hh
    subst ht
    have hk : keys[t]? = some t := hc
    simp [Slotmap.freeChainFrom, hk]
  | a :: b :: rest, 0, _, _, _, hf, _ => by simp at hf
  | a :: b :: rest, fuel + 1, h, hc, hnd, hf, hh => by
    have ha : a = h := by simpa using hh
    subst ha
    have hk : keys[a]? = some b := hc.1
    have hne : b ≠ a := by
      intro e
      exact (List.nodup_cons.mp hnd).1 (e ▸ List.mem_cons_self _ _)
    have hrec := IsChain.walk fuel b hc.2 (List.nodup_cons.mp hnd).2
      (by simpa using hf) rfl
    simp [Slotmap.freeChainFrom, hk, hne, hrec]

/-- The walk from `freeKeyHead` returns the free chain of the invariant. -/
theorem Core.freeChain_eq {T : Type} {s : Slotmap T} {live free : List Nat}
    (hc : Core s live free) : freeChain s = some free := by
  have hlen := hc.keys_length
  exact IsChain.walk s.keys.length s.freeKeyHead hc.chain hc.freeNodup (by omega) hc.headEq

/-- What `addElement` does to the free chain: it hands out the head and
leaves the rest, or the fresh slot when the head was alone. -/
theorem addElement_core {T : Type} {s : Slotmap T} {live free : List Nat}
    (hc : Core s live free) (v : T) :
    ∃ s2 free2, specDequeue free s.keys.length = some (s.freeKeyHead, free2) ∧
      addElement s v = some (s2, s.freeKeyHead) ∧ Core s2 (s.freeKeyHead :: live) free2 := by
  cases free with
  | nil => exact absurd rfl hc.chain.ne_nil
  | cons f rest =>
    have hf : f = s.freeKeyHead := by simpa using hc.headEq
    subst hf
    have hflt : s.freeKeyHead < s.keys.length := (hc.dom _).2 (Or.inr (by simp))
    cases rest with
    | nil =>
      have ht : s.freeKeyHead = s.freeKeyTail := by simpa using hc.tailEq
      exact ⟨_, [s.keys.length], rfl, addElement_eq_single s v hflt ht, hc.add_single v⟩
    | cons b r =>
      have hnext : s.keys[s.freeKeyHead]? = some b := hc.chain.1
      have hne : s.freeKeyHead ≠ s.freeKeyTail := by
        intro e
        have hl2 : (b :: r).getLast? = some s.freeKeyTail := by simpa using hc.tailEq
        have hmem : s.freeKeyTail ∈ b :: r := List.mem_of_getLast?_eq_some hl2
        exact (List.nodup_cons.mp hc.freeNodup).1 (e ▸ hmem)
      exact ⟨_, b :: r, rfl, addElement_eq_many s v b hnext hne, hc.add_many v⟩

/-- A state satisfying the invariant with a handle table that is not empty
satisfies `Core`. -/
theorem Inv.core_of_keys {T : Type} {s : Slotmap T} {live : List Nat} (hi : Inv s live)
    (hk : s.keys ≠ []) : ∃ free, Core s live free := by
  rcases hi with ⟨hs, _⟩ | hc
  · subst hs
    exact absurd rfl hk
  · exact hc

/-- The last handle of a chain links to itself. -/
theorem IsChain.last_self {keys : List Nat} :
    ∀ {fr : List Nat} {t : Nat}, IsChain keys fr → fr.getLast? = some t → keys[t]? = some t
  | [], _, hc, _ => hc.elim
  | [x], t, hc, hl => by
    have hx : x = t := by simpa using hl
    subst hx
    exact hc
  | a :: b :: rest, t, hc, hl => by
    have hl2 : (b :: rest).getLast? = some t := by simpa using hl
    exact IsChain.last_self hc.2 hl2

/-- The invariant gives the reverse-map consistency of the handles in use. -/
theorem Inv.reverseMapConsistent {T : Type} {s : Slotmap T} {live : List Nat}
    (hi : Inv s live) : ReverseMapConsistent s live := by
  intro h hh
  obtain ⟨p, hp, hb, hlt, _⟩ := hi.lookup hh
  exact ⟨p, hp, hlt, hb⟩

/-- The free chain of a state satisfying the invariant is the one the walk
from `freeKeyHead` returns. -/
theorem Inv.core_of_freeChain {T : Type} {s : Slotmap T} {live free : List Nat}
    (hi : Inv s live) (hf : freeChain s = some free) : Core s live free := by
  by_cases hk : s.keys = []
  · simp [Slotmap.freeChain, hk, Slotmap.freeChainFrom] at hf
  · obtain ⟨free2, hc⟩ := hi.core_of_keys hk
    have h2 := hc.freeChain_eq
    rw [hf] at h2
    have he : free = free2 := Option.some.inj h2
    subst he
    exact hc

/-- What `removeElement` of a handle in use does to the free chain: the
handle joins its end. -/
theorem removeElement_core {T : Type} {s : Slotmap T} {live free : List Nat}
    (hc : Core s live free) {h : Nat} (hh : h ∈ live) :
    ∃ s2, removeElement s h = some s2 ∧ Core s2 (live.erase h) (free ++ [h]) ∧
      s2.keys.length = s.keys.length := by
  obtain ⟨_, _, _, free2, s2, _, _, _, _, _, _, _, _, _, hc0, hrm, _, hke, _, _, _, hc2⟩ :=
    removeElement_inv (Or.inr ⟨free, hc⟩) hh
  have h1 := hc.freeChain_eq
  rw [hc0.freeChain_eq] at h1
  have he : free2 = free := Option.some.inj h1
  subst he
  refine ⟨s2, hrm, hc2, ?_⟩
  rw [hke]
  simp

/-- Consecutive removals of distinct handles in use put them at the end of
the free chain in the order of the calls. -/
theorem Core.removeAll_chain {T : Type} :
    ∀ (hs : List Nat) {s : Slotmap T} {live free : List Nat}, Core s live free → hs.Nodup →
      (∀ h, h ∈ hs → h ∈ live) →
      ∃ s2 live2, removeAll s hs = some s2 ∧ Core s2 live2 (free ++ hs)
  | [], s, live, free, hc, _, _ => ⟨s, live, rfl, by simpa using hc⟩
  | h :: hs, s, live, free, hc, hnd, hsub => by
    have hh : h ∈ live := hsub h (List.mem_cons_self _ _)
    obtain ⟨s1, hrm, hc1, _⟩ := removeElement_core hc hh
    have hsub1 : ∀ x, x ∈ hs → x ∈ live.erase h := by
      intro x hx
      have hne : x ≠ h := fun e => (List.nodup_cons.mp hnd).1 (e ▸ hx)
      exact (hc.liveNodup.mem_erase_iff).2 ⟨hne, hsub x (List.mem_cons_of_mem _ hx)⟩
    obtain ⟨s2, live2, hr2, hc2⟩ :=
      Core.removeAll_chain hs hc1 (List.nodup_cons.mp hnd).2 hsub1
    refine ⟨s2, live2, ?_, ?_⟩
    · simp [Slotmap.removeAll, hrm, hr2]
    · simpa using hc2

/-- Consecutive insertions, no more than the free chain has handles, return
the handles of the chain in chain order. -/
theorem Core.addAll_chain {T : Type} :
    ∀ (vs : List T) {s : Slotmap T} {live free : List Nat}, Core s live free →
      vs.length ≤ free.length →
      ∃ s2 live2 free2, addAll s vs = some (s2, free.take vs.length) ∧ Core s2 live2 free2
  | [], s, live, free, hc, _ => ⟨s, live, free, by simp [Slotmap.addAll], hc⟩
  | v :: vs, s, live, free, hc, hlen => by
    obtain ⟨s1, free1, hd, ha, hc1⟩ := addElement_core hc v
    cases free with
    | nil => exact absurd rfl hc.chain.ne_nil
    | cons f rest =>
      have hf : f = s.freeKeyHead := by simpa using hc.headEq
      cases rest with
      | nil =>
        have hvs : vs = [] := by
          cases vs with
          | nil => rfl
          | cons a t => simp at hlen
        subst hvs
        refine ⟨s1, _, free1, ?_, hc1⟩
        simp [Slotmap.addAll, ha, hf]
      | cons b r =>
        have hfree1 : free1 = b :: r := by
          simp only [Slotmap.specDequeue, Option.some.injEq, Prod.mk.injEq] at hd
          exact hd.2.symm
        subst hfree1
        have hlen1 : vs.length ≤ (b :: r).length := by simpa using hlen
        obtain ⟨s2, live2, free2, h2, hc2⟩ := Core.addAll_chain vs hc1 hlen1
        refine ⟨s2, live2, free2, ?_, hc2⟩
        simp [Slotmap.addAll, ha, h2, hf]

/-- The meaning of the bounds-checked debug condition. -/
theorem debugCondition_iff {T : Type} (s : Slotmap T) (h : Nat) :
    debugCondition s h = true ↔
      h < s.keys.length ∧ ∃ p, s.keys[h]? = some p ∧ p < s.eraseMap.length ∧
        s.eraseMap[p]? = some h := by
  unfold Slotmap.debugCondition
  cases hk : s.keys[h]? with
  | none => simp
  | some p => simp

/-- The run that tracks the peak of `size()` passes through the same states
as the plain run. -/
theorem runPeakFrom_fst {T : Type} :
    ∀ (ops : List (Op T)) (st : Slotmap T × List Nat) (peak : Nat),
      (runPeakFrom st peak ops).map Prod.fst = runFrom st ops
  | [], _, _ => rfl
  | Op.add v :: ops, st, peak => by
    simp only [Slotmap.runPeakFrom, Slotmap.runFrom]
    cases Slotmap.step st (Op.add v) with
    | none => rfl
    | some st1 => exact runPeakFrom_fst ops st1 _
  | Op.remove h :: ops, st, peak => by
    simp only [Slotmap.runPeakFrom, Slotmap.runFrom]
    cases Slotmap.step st (Op.remove h) with
    | none => rfl
    | some st1 => exact runPeakFrom_fst ops st1 _
  | Op.clear :: ops, st, peak => by
    simp only [Slotmap.runPeakFrom, Slotmap.runFrom]
    cases Slotmap.step st Op.clear with
    | none => rfl
    | some st1 => exact runPeakFrom_fst ops st1 _

/-- What `addElement` does to the lengths: `size()` grows by one; the handle
table grows to `size() + 1`, or keeps its length; the returned handle is
inside the previous handle table, or is 0 on a constructed slotmap. -/
theorem Inv.add_lengths {T : Type} {s : Slotmap T} {live : List Nat} (hi : Inv s live)
    (v : T) :
    ∃ s2, addElement s v = some (s2, s.freeKeyHead) ∧ Inv s2 (s.freeKeyHead :: live) ∧
      size s2 = size s + 1 ∧
      (s2.keys.length = size s2 + 1 ∨ s2.keys.length = s.keys.length) ∧
      (s.freeKeyHead < s.keys.length ∨ (s.keys.length = 0 ∧ s.freeKeyHead = 0)) := by
  rcases hi with ⟨hs, hl⟩ | ⟨free, hc⟩
  · subst hs
    subst hl
    exact ⟨_, addElement_empty v, Or.inr ⟨[1], Core.add_single (Core.seed T) v⟩, rfl,
      Or.inl rfl, Or.inr ⟨rfl, rfl⟩⟩
  · obtain ⟨s2, free2, hd, ha, hc2⟩ := addElement_core hc v
    have hk := hc.keys_length
    have hk2 := hc2.keys_length
    have hl2 : (s.freeKeyHead :: live).length = s2.elements.length := hc2.liveLen
    have hl1 := hc.liveLen
    have hsz : size s2 = size s + 1 := by
      simp only [Slotmap.size]
      simp only [List.length_cons] at hl2
      omega
    have hhead : s.freeKeyHead < s.keys.length := by
      have hm : s.freeKeyHead ∈ free := List.mem_of_mem_head? hc.headEq
      exact (hc.dom _).2 (Or.inr hm)
    refine ⟨s2, ha, Or.inr ⟨free2, hc2⟩, hsz, ?_, Or.inl hhead⟩
    cases free with
    | nil => exact absurd rfl hc.chain.ne_nil
    | cons f rest =>
      cases rest with
      | nil =>
        simp only [Slotmap.specDequeue, Option.some.injEq, Prod.mk.injEq] at hd
        left
        rw [← hd.2] at hk2
        simpa [Slotmap.size] using hk2
      | cons b r =>
        simp only [Slotmap.specDequeue, Option.some.injEq, Prod.mk.injEq] at hd
        right
        rw [← hd.2] at hk2
        simp only [Slotmap.size] at hsz
        simp only [List.length_cons] at hk hk2
        omega

/-- The invariant of the run that tracks the peak: the peak is at least
`size()`, and the handle table has at most one entry more than the peak. -/
theorem Inv.runPeak_bound {T : Type} :
    ∀ (ops : List (Op T)) {s s2 : Slotmap T} {live live2 : List Nat} {peak peak2 : Nat},
      Inv s live → size s ≤ peak → s.keys.length ≤ peak + 1 →
      runPeakFrom (s, live) peak ops = some ((s2, live2), peak2) →
      Inv s2 live2 ∧ size s2 ≤ peak2 ∧ s2.keys.length ≤ peak2 + 1
  | [], s, s2, live, live2, peak, peak2, hi, h1, h2, hr => by
    simp only [Slotmap.runPeakFrom, Option.some.injEq, Prod.mk.injEq] at hr
    obtain ⟨⟨e1, e2⟩, e3⟩ := hr
    subst e1
    subst e2
    subst e3
    exact ⟨hi, h1, h2⟩
  | Op.add v :: ops, s, s2, live, live2, peak, peak2, hi, h1, h2, hr => by
    obtain ⟨s1, ha, hi1, hsz, hkl, _⟩ := hi.add_lengths v
    have hstep : Slotmap.step (s, live) (Op.add v) = some (s1, s.freeKeyHead :: live) := by
      simp [Slotmap.step, ha]
    simp only [Slotmap.runPeakFrom, hstep, Option.some_bind] at hr
    refine Inv.runPeak_bound ops hi1 (Nat.le_max_right _ _) ?_ hr
    have := Nat.le_max_left peak (size s1)
    have := Nat.le_max_right peak (size s1)
    rcases hkl with hk | hk <;> omega
  | Op.remove h :: ops, s, s2, live, live2, peak, peak2, hi, h1, h2, hr => by
    by_cases hh : h ∈ live
    · obtain ⟨free, hc⟩ : ∃ free, Core s live free := by
        rcases hi with ⟨_, hl⟩ | hc
        · subst hl
          exact absurd hh (List.not_mem_nil h)
        · exact hc
      obtain ⟨s1, hrm, hc1, hkl⟩ := removeElement_core hc hh
      have hstep : Slotmap.step (s, live) (Op.remove h) = some (s1, live.erase h) := by
        simp [Slotmap.step, hh, hrm]
      simp only [Slotmap.runPeakFrom, hstep, Option.some_bind] at hr
      refine Inv.runPeak_bound ops (Or.inr ⟨_, hc1⟩) (Nat.le_max_right _ _) ?_ hr
      have := Nat.le_max_left peak (size s1)
      omega
    · simp [Slotmap.runPeakFrom, Slotmap.step, hh] at hr
  | Op.clear :: ops, s, s2, live, live2, peak, peak2, hi, h1, h2, hr => by
    have hstep : Slotmap.step (s, live) Op.clear = some (Slotmap.clear s, []) := rfl
    simp only [Slotmap.runPeakFrom, hstep, Option.some_bind] at hr
    exact Inv.runPeak_bound ops (Or.inl ⟨rfl, rfl⟩) (Nat.le_refl _) (Nat.zero_le _) hr

/-- Consecutive insertions into a state whose free chain is the last slot of
the handle table alone return consecutive handles from that slot on. -/
theorem Core.addAll_fresh {T : Type} :
    ∀ (vs : List T) {s : Slotmap T} {live : List Nat} {f : Nat}, Core s live [f] →
      f + 1 = s.keys.length → ∃ s2, addAll s vs = some (s2, List.range' f vs.length)
  | [], s, _, _, _, _ => ⟨s, rfl⟩
  | v :: vs, s, live, f, hc, hf => by
    obtain ⟨s1, free1, hd, ha, hc1⟩ := addElement_core hc v
    simp only [Slotmap.specDequeue, Option.some.injEq, Prod.mk.injEq] at hd
    obtain ⟨hhead, hfree⟩ := hd
    subst hfree
    have hk := hc.keys_length
    have hk1 := hc1.keys_length
    have hl1 : (s.freeKeyHead :: live).length = s1.elements.length := hc1.liveLen
    have hl := hc.liveLen
    have hnext : s.keys.length + 1 = s1.keys.length := by
      simp only [List.length_cons, List.length_singleton, List.length_nil] at hk hk1 hl1
      omega
    obtain ⟨s2, h2⟩ := Core.addAll_fresh vs hc1 hnext
    refine ⟨s2, ?_⟩
    simp only [Slotmap.addAll, ha, Option.some_bind, h2, Option.map_some', List.length_cons,
      ← hhead, ← hf]
    rfl

/-! ## The behaviour -/

/-- C11. Reverse-map consistency: in every reachable state every handle `h`
in use has `keys[h] < elements.size()` and `eraseMap[keys[h]] == h`; and the
same holds after `addElement`, after `removeElement` of a handle in use, and
after `clear`. -/
theorem reverse_map_consistency {T : Type} (s : Slotmap T) (live : List Nat)
    (hr : Reachable s live) :
    ReverseMapConsistent s live ∧
    (∀ v : T, ∃ s2 h, addElement s v = some (s2, h) ∧
      step (s, live) (Op.add v) = some (s2, h :: live) ∧
      ReverseMapConsistent s2 (h :: live)) ∧
    (∀ h, h ∈ live → ∃ s2, removeElement s h = some s2 ∧
      step (s, live) (Op.remove h) = some (s2, live.erase h) ∧
      ReverseMapConsistent s2 (live.erase h)) ∧
    (step (s, live) Op.clear = some (clear s, []) ∧ ReverseMapConsistent (clear s) []) := by
  have hi := hr.inv
  refine ⟨hi.reverseMapConsistent, ?_, ?_, rfl, ?_⟩
  · intro v
    obtain ⟨s2, free2, ha, hc2, _⟩ := addElement_inv hi v
    have hstep : step (s, live) (Op.add v) = some (s2, s.freeKeyHead :: live) := by
      simp [Slotmap.step, ha]
    have hi2 : Inv s2 (s.freeKeyHead :: live) := Or.inr ⟨free2, hc2⟩
    exact ⟨s2, s.freeKeyHead, ha, hstep, hi2.reverseMapConsistent⟩
  · intro h hh
    obtain ⟨_, _, _, free, s2, _, _, _, _, _, _, _, _, _, _, hrm, _, _, _, _, _, hc2⟩ :=
      removeElement_inv hi hh
    have hstep : step (s, live) (Op.remove h) = some (s2, live.erase h) := by
      simp [Slotmap.step, hh, hrm]
    have hi2 : Inv s2 (live.erase h) := Or.inr ⟨_, hc2⟩
    exact ⟨s2, hrm, hstep, hi2.reverseMapConsistent⟩
  · intro h hh
    exact absurd hh (List.not_mem_nil h)

/-- Witness of C11 on the state after three insertions and one removal. -/
theorem reverse_map_consistency_witness :
    Reachable sampleRemoved [2, 1] ∧
    ReverseMapConsistent sampleRemoved [2, 1] ∧
    (∀ v : Nat, ∃ s2 h, addElement sampleRemoved v = some (s2, h) ∧
      step (sampleRemoved, [2, 1]) (Op.add v) = some (s2, h :: [2, 1]) ∧
      ReverseMapConsistent s2 (h :: [2, 1])) ∧
    (∀ h, h ∈ [2, 1] → ∃ s2, removeElement sampleRemoved h = some s2 ∧
      step (sampleRemoved, [2, 1]) (Op.remove h) = some (s2, [2, 1].erase h) ∧
      ReverseMapConsistent s2 ([2, 1].erase h)) ∧
    (step (sampleRemoved, [2, 1]) Op.clear = some (clear sampleRemoved, []) ∧
      ReverseMapConsistent (clear sampleRemoved) []) :=
  have hr : Reachable sampleRemoved [2, 1] :=
    ⟨[Op.add 10, Op.add 20, Op.add 30, Op.remove 0], by decide⟩
  ⟨hr, reverse_map_consistency sampleRemoved [2, 1] hr⟩

/-- C12. Free-list invariant: in every reachable state whose handle table is
not empty, `keys.size() >= size()`, and the walk from `freeKeyHead` along
`h -> keys[h]` visits every handle below `keys.size()` that is not in use
exactly once and no other, ends at `freeKeyTail`, which links to itself; so
`keys.size()` is `size()` plus the length of the chain, which is at least 1. -/
theorem free_list_invariant {T : Type} (s : Slotmap T) (live : List Nat)
    (hr : Reachable s live) (hk : s.keys ≠ []) :
    size s ≤ s.keys.length ∧
    ∃ free, freeChain s = some free ∧ free.Nodup ∧
      (∀ h, h ∈ free ↔ h < s.keys.length ∧ h ∉ live) ∧
      free.head? = some s.freeKeyHead ∧ free.getLast? = some s.freeKeyTail ∧
      s.keys[s.freeKeyTail]? = some s.freeKeyTail ∧
      s.keys.length = size s + free.length ∧ 1 ≤ free.length := by
  obtain ⟨free, hc⟩ := hr.inv.core_of_keys hk
  have hlen := hc.keys_length
  have hpos : 1 ≤ free.length := by
    cases free with
    | nil => exact absurd rfl hc.chain.ne_nil
    | cons a t => simp
  refine ⟨?_, free, hc.freeChain_eq, hc.freeNodup, ?_, hc.headEq, hc.tailEq,
    IsChain.last_self hc.chain hc.tailEq, hlen, hpos⟩
  · show s.elements.length ≤ s.keys.length
    omega
  · intro h
    constructor
    · intro hf
      exact ⟨(hc.dom h).2 (Or.inr hf), hc.disj h hf⟩
    · rintro ⟨hlt, hnl⟩
      rcases (hc.dom h).1 hlt with hl | hf
      · exact absurd hl hnl
      · exact hf

/-- Witness of C12 on the state after three insertions and one removal. -/
theorem free_list_invariant_witness :
    Reachable sampleRemoved [2, 1] ∧ sampleRemoved.keys ≠ [] ∧
    size sampleRemoved ≤ sampleRemoved.keys.length ∧
    ∃ free, freeChain sampleRemoved = some free ∧ free.Nodup ∧
      (∀ h, h ∈ free ↔ h < sampleRemoved.keys.length ∧ h ∉ [2, 1]) ∧
      free.head? = some sampleRemoved.freeKeyHead ∧
      free.getLast? = some sampleRemoved.freeKeyTail ∧
      sampleRemoved.keys[sampleRemoved.freeKeyTail]? = some sampleRemoved.freeKeyTail ∧
      sampleRemoved.keys.length = size sampleRemoved + free.length ∧ 1 ≤ free.length :=
  have hr : Reachable sampleRemoved [2, 1] :=
    ⟨[Op.add 10, Op.add 20, Op.add 30, Op.remove 0], by decide⟩
  have hk : sampleRemoved.keys ≠ [] := by decide
  ⟨hr, hk, free_list_invariant sampleRemoved [2, 1] hr hk⟩

/-- C13. The free list refines a FIFO queue: in a reachable state whose free
chain is `free`, `addElement` returns the head of the chain and leaves its
tail, or the one-handle chain of the previous `keys.size()` when the head was
alone (the dequeue of the specification); `removeElement` of a handle in use
leaves the chain with the handle appended (the enqueue of the
specification); so handles removed one after the other are appended in that
order and, once the handles already free are used up, are reissued in that
order. -/
theorem free_list_refines_fifo {T : Type} (s : Slotmap T) (live free : List Nat)
    (hr : Reachable s live) (hf : freeChain s = some free) :
    (∀ v : T, ∃ s2 h free2, addElement s v = some (s2, h) ∧ freeChain s2 = some free2 ∧
      specDequeue free s.keys.length = some (h, free2) ∧ free.head? = some h ∧
      (free.tail = [] → free2 = [s.keys.length]) ∧ (free.tail ≠ [] → free2 = free.tail)) ∧
    (∀ h, h ∈ live → ∃ s2, removeElement s h = some s2 ∧
      freeChain s2 = some (specEnqueue free h) ∧ specEnqueue free h = free ++ [h]) ∧
    (∀ hs : List Nat, hs.Nodup → (∀ h, h ∈ hs → h ∈ live) →
      ∃ s1, removeAll s hs = some s1 ∧ freeChain s1 = some (free ++ hs) ∧
        ∀ vs : List T, vs.length = free.length + hs.length →
          ∃ s2, addAll s1 vs = some (s2, free ++ hs)) := by
  have hc := hr.inv.core_of_freeChain hf
  refine ⟨?_, ?_, ?_⟩
  · intro v
    obtain ⟨s2, free2, hd, ha, hc2⟩ := addElement_core hc v
    refine ⟨s2, s.freeKeyHead, free2, ha, hc2.freeChain_eq, hd, hc.headEq, ?_, ?_⟩
    · intro ht
      cases free with
      | nil => exact absurd rfl hc.chain.ne_nil
      | cons f rest =>
        have hrest : rest = [] := ht
        subst hrest
        simp only [Slotmap.specDequeue, Option.some.injEq, Prod.mk.injEq] at hd
        exact hd.2.symm
    · intro ht
      cases free with
      | nil => exact absurd rfl hc.chain.ne_nil
      | cons f rest =>
        cases rest with
        | nil => exact absurd rfl ht
        | cons b r =>
          simp only [Slotmap.specDequeue, Option.some.injEq, Prod.mk.injEq] at hd
          exact hd.2.symm
  · intro h hh
    obtain ⟨s2, hrm, hc2, _⟩ := removeElement_core hc hh
    exact ⟨s2, hrm, hc2.freeChain_eq, rfl⟩
  · intro hs hnd hsub
    obtain ⟨s1, live1, hrm, hc1⟩ := Core.removeAll_chain hs hc hnd hsub
    refine ⟨s1, hrm, hc1.freeChain_eq, ?_⟩
    intro vs hlen
    have hle : vs.length ≤ (free ++ hs).length := by
      rw [List.length_append]
      omega
    obtain ⟨s2, _, _, ha, _⟩ := Core.addAll_chain vs hc1 hle
    have hall : (free ++ hs).take vs.length = free ++ hs := by
      apply List.take_of_length_le
      rw [List.length_append]
      omega
    rw [hall] at ha
    exact ⟨s2, ha⟩

/-- Witness of C13 on the state after three insertions and one removal, whose
free chain is 3, 0. -/
theorem free_list_refines_fifo_witness :
    Reachable sampleRemoved [2, 1] ∧ freeChain sampleRemoved = some [3, 0] ∧
    (∀ v : Nat, ∃ s2 h free2, addElement sampleRemoved v = some (s2, h) ∧
      freeChain s2 = some free2 ∧
      specDequeue [3, 0] sampleRemoved.keys.length = some (h, free2) ∧
      [3, 0].head? = some h ∧
      ([3, 0].tail = [] → free2 = [sampleRemoved.keys.length]) ∧
      ([3, 0].tail ≠ [] → free2 = [3, 0].tail)) ∧
    (∀ h, h ∈ [2, 1] → ∃ s2, removeElement sampleRemoved h = some s2 ∧
      freeChain s2 = some (specEnqueue [3, 0] h) ∧ specEnqueue [3, 0] h = [3, 0] ++ [h]) ∧
    (∀ hs : List Nat, hs.Nodup → (∀ h, h ∈ hs → h ∈ [2, 1]) →
      ∃ s1, removeAll sampleRemoved hs = some s1 ∧ freeChain s1 = some ([3, 0] ++ hs) ∧
        ∀ vs : List Nat, vs.length = [3, 0].length + hs.length →
          ∃ s2, addAll s1 vs = some (s2, [3, 0] ++ hs)) :=
  have hr : Reachable sampleRemoved [2, 1] :=
    ⟨[Op.add 10, Op.add 20, Op.add 30, Op.remove 0], by decide⟩
  have hf : freeChain sampleRemoved = some [3, 0] := by decide
  ⟨hr, hf, free_list_refines_fifo sampleRemoved [2, 1] [3, 0] hr hf⟩

/-- C14. Index safety under the precondition: in every reachable state
`elements` and `eraseMap` have the same length; for every handle in use the
assertion `keys.size() > handle` of `elementAt` and `removeElement` holds,
the assertion `eraseMap[keys[handle]] == handle` holds with both reads inside
their vectors, `elementAt` and `removeElement` return without an access
outside a vector, `elements.size() - 1` does not underflow, and `find`
returns a cursor inside the value storage; and `handle(it)` reads inside
`eraseMap` for every cursor with `begin() <= it < end()`. -/
theorem index_safety {T : Type} (s : Slotmap T) (live : List Nat) (hr : Reachable s live) :
    s.elements.length = s.eraseMap.length ∧
    (∀ h, h ∈ live →
      s.keys.length > h ∧
      (∃ p, s.keys[h]? = some p ∧ p < s.eraseMap.length ∧ s.eraseMap[p]? = some h ∧
        p < s.elements.length ∧ find s h = p) ∧
      (∃ x, elementAt s h = some x ∧ elementAtUnchecked s h = some x) ∧
      1 ≤ s.elements.length ∧
      (∃ s2, removeElement s h = some s2)) ∧
    (∀ it, begin_ s ≤ it → it < end_ s → ∃ h, handle s it = some h) := by
  have hi := hr.inv
  refine ⟨hi.lenEq, ?_, ?_⟩
  · intro h hh
    obtain ⟨p, hp, hb, hlt, hhlt⟩ := hi.lookup hh
    obtain ⟨_, _, _, _, s2, _, _, _, _, _, _, _, _, _, _, hrm, _⟩ := removeElement_inv hi hh
    refine ⟨hhlt, ⟨p, hp, lt_of_getElem?_some hb, hb, hlt, find_eq hp⟩, ?_, by omega,
      ⟨s2, hrm⟩⟩
    refine ⟨s.elements.get ⟨p, hlt⟩, ?_, ?_⟩
    · rw [elementAt_eq hp hb]
      exact List.getElem?_eq_getElem hlt
    · simp only [Slotmap.elementAtUnchecked, hp, Option.some_bind]
      exact List.getElem?_eq_getElem hlt
  · intro it _ hlt
    have hltE : it < s.eraseMap.length := hi.lenEq ▸ hlt
    exact ⟨s.eraseMap.get ⟨it, hltE⟩, List.getElem?_eq_getElem hltE⟩

/-- Witness of C14 on the state after three insertions and one removal. -/
theorem index_safety_witness :
    Reachable sampleRemoved [2, 1] ∧
    sampleRemoved.elements.length = sampleRemoved.eraseMap.length ∧
    (∀ h, h ∈ [2, 1] →
      sampleRemoved.keys.length > h ∧
      (∃ p, sampleRemoved.keys[h]? = some p ∧ p < sampleRemoved.eraseMap.length ∧
        sampleRemoved.eraseMap[p]? = some h ∧ p < sampleRemoved.elements.length ∧
        find sampleRemoved h = p) ∧
      (∃ x, elementAt sampleRemoved h = some x ∧ elementAtUnchecked sampleRemoved h = some x) ∧
      1 ≤ sampleRemoved.elements.length ∧
      (∃ s2, removeElement sampleRemoved h = some s2)) ∧
    (∀ it, begin_ sampleRemoved ≤ it → it < end_ sampleRemoved →
      ∃ h, handle sampleRemoved it = some h) :=
  have hr : Reachable sampleRemoved [2, 1] :=
    ⟨[Op.add 10, Op.add 20, Op.add 30, Op.remove 0], by decide⟩
  ⟨hr, index_safety sampleRemoved [2, 1] hr⟩

/-- C15. Insert appends: in every reachable state with `N = size()`, after
`h = addElement(v)` the value storage is the previous one with `v` appended
at position `N`, the positions below `N` keep their values and their owning
handles, `keys[h] == N`, `eraseMap[N] == h`, and `find(h)` is the cursor at
position `N`, the last one of the traversal. -/
theorem insert_appends {T : Type} (s : Slotmap T) (live : List Nat) (hr : Reachable s live)
    (v : T) :
    ∃ s2 h, addElement s v = some (s2, h) ∧
      s2.elements = s.elements ++ [v] ∧ size s2 = size s + 1 ∧
      (∀ p, p < size s → deref s2 p = deref s p ∧ handle s2 p = handle s p) ∧
      deref s2 (size s) = some v ∧
      s2.keys[h]? = some (size s) ∧ s2.eraseMap[size s]? = some h ∧
      find s2 h = size s ∧
      (∀ fuel, size s2 ≤ fuel →
        ∃ visited, traverseFrom s2 fuel (begin_ s2) = some visited ∧
          visited.getLast? = some (find s2 h)) := by
  obtain ⟨s2, free2, ha, _, _, hel, her, hk, _, hlen⟩ := addElement_inv hr.inv v
  have hsz : size s2 = size s + 1 := by simp [Slotmap.size, hel]
  have hfind : find s2 s.freeKeyHead = size s := find_eq hk
  refine ⟨s2, s.freeKeyHead, ha, hel, hsz, ?_, ?_, hk, ?_, hfind, ?_⟩
  · intro p hp
    have hp1 : p < s.elements.length := hp
    have hp2 : p < s.eraseMap.length := hlen ▸ hp1
    constructor
    · simp only [Slotmap.deref, hel]
      exact List.getElem?_append_left hp1
    · simp only [Slotmap.handle, her]
      exact List.getElem?_append_left hp2
  · simp only [Slotmap.deref, hel, Slotmap.size]
    exact List.getElem?_concat_length _ _
  · show s2.eraseMap[s.elements.length]? = some s.freeKeyHead
    rw [her, hlen]
    exact List.getElem?_concat_length _ _
  · intro fuel hf
    have ht := traverseFrom_eq s2 fuel 0 (Nat.zero_le _)
      (by simpa [Slotmap.end_, Slotmap.size] using hf)
    refine ⟨List.range (size s2), ?_, ?_⟩
    · simpa [Slotmap.begin_, Slotmap.end_, Slotmap.size, List.range_eq_range'] using ht
    · rw [hfind, hsz, List.range_succ]
      exact List.getLast?_concat _

/-- Witness of C15 on the state after three insertions and one removal. -/
theorem insert_appends_witness :
    Reachable sampleRemoved [2, 1] ∧
    ∃ s2 h, addElement sampleRemoved 40 = some (s2, h) ∧
      s2.elements = sampleRemoved.elements ++ [40] ∧ size s2 = size sampleRemoved + 1 ∧
      (∀ p, p < size sampleRemoved →
        deref s2 p = deref sampleRemoved p ∧ handle s2 p = handle sampleRemoved p) ∧
      deref s2 (size sampleRemoved) = some 40 ∧
      s2.keys[h]? = some (size sampleRemoved) ∧ s2.eraseMap[size sampleRemoved]? = some h ∧
      find s2 h = size sampleRemoved ∧
      (∀ fuel, size s2 ≤ fuel →
        ∃ visited, traverseFrom s2 fuel (begin_ s2) = some visited ∧
          visited.getLast? = some (find s2 h)) :=
  have hr : Reachable sampleRemoved [2, 1] :=
    ⟨[Op.add 10, Op.add 20, Op.add 30, Op.remove 0], by decide⟩
  ⟨hr, insert_appends sampleRemoved [2, 1] hr 40⟩

/-- C16. Removal moves at most one other element: in every reachable state
with `N = size()`, after `removeElement` of a handle `h` in use at position
`p`, every other handle in use keeps its entry of `keys`, except the handle
that owned position `N - 1`, whose entry becomes `p`; when `p == N - 1` that
handle is `h`, the write that repoints it changes nothing, and every other
handle in use keeps its entry. The entries of `keys` that change are those of
`h`, of `freeKeyTail` and of that handle. -/
theorem removal_moves_at_most_one {T : Type} (s : Slotmap T) (live : List Nat) (h : Nat)
    (hr : Reachable s live) (hh : h ∈ live) :
    ∃ p lastH s2, s.keys[h]? = some p ∧ s.eraseMap[size s - 1]? = some lastH ∧
      lastH ∈ live ∧ s.keys[lastH]? = some (size s - 1) ∧
      removeElement s h = some s2 ∧
      (∀ h2, h2 ∈ live → h2 ≠ h → h2 ≠ lastH → s2.keys[h2]? = s.keys[h2]?) ∧
      (lastH ≠ h → s2.keys[lastH]? = some p) ∧
      (p = size s - 1 → lastH = h ∧ s.keys.set lastH p = s.keys ∧
        ∀ h2, h2 ∈ live → h2 ≠ h → s2.keys[h2]? = s.keys[h2]?) ∧
      (∀ x, x ≠ h → x ≠ s.freeKeyTail → x ≠ lastH → s2.keys[x]? = s.keys[x]?) := by
  obtain ⟨p, lastH, lastV, free, s2, hp, hb, hpN, hlastV, hlastH, hlastL, hlastK, htl, htlt,
    hc, hrm, _, hke, _, _, _, _⟩ := removeElement_inv hr.inv hh
  have hkeys := keys_after_remove s.keys p (lt_of_getElem?_some hlastK) htlt
    (lt_of_getElem?_some hp)
  have hframe : ∀ x, x ≠ h → x ≠ s.freeKeyTail → x ≠ lastH → s2.keys[x]? = s.keys[x]? := by
    intro x h1 h2 h3
    rw [hke, hkeys]
    simp [h1, h2, h3]
  have hlive : ∀ h2, h2 ∈ live → h2 ≠ h → h2 ≠ lastH → s2.keys[h2]? = s.keys[h2]? := by
    intro h2 hl h1 h3
    exact hframe h2 h1 (fun e => htl (e ▸ hl)) h3
  refine ⟨p, lastH, s2, hp, hlastH, hlastL, hlastK, hrm, hlive, ?_, ?_, hframe⟩
  · intro hne
    have hlt : lastH ≠ s.freeKeyTail := fun e => htl (e ▸ hlastL)
    rw [hke, hkeys]
    simp [hne, hlt]
  · intro hpe
    have hpe2 : p = s.elements.length - 1 := hpe
    have hl : lastH = h := by
      rw [hpe2, hlastH] at hb
      exact Option.some.inj hb
    refine ⟨hl, ?_, ?_⟩
    · apply List.ext_getElem?
      intro i
      rw [List.getElem?_set]
      by_cases hi : lastH = i
      · subst hi
        simp [lt_of_getElem?_some hlastK, hlastK, hpe2]
      · simp [hi]
    · intro h2 hl2 hne
      exact hlive h2 hl2 hne (fun e => hne (e.trans hl))

/-- Witness of C16 on the state after three insertions, for the handle 0. -/
theorem removal_moves_at_most_one_witness :
    Reachable sampleThree [2, 1, 0] ∧ 0 ∈ [2, 1, 0] ∧
    ∃ p lastH s2, sampleThree.keys[0]? = some p ∧
      sampleThree.eraseMap[size sampleThree - 1]? = some lastH ∧
      lastH ∈ [2, 1, 0] ∧ sampleThree.keys[lastH]? = some (size sampleThree - 1) ∧
      removeElement sampleThree 0 = some s2 ∧
      (∀ h2, h2 ∈ [2, 1, 0] → h2 ≠ 0 → h2 ≠ lastH → s2.keys[h2]? = sampleThree.keys[h2]?) ∧
      (lastH ≠ 0 → s2.keys[lastH]? = some p) ∧
      (p = size sampleThree - 1 →
        lastH = 0 ∧ sampleThree.keys.set lastH p = sampleThree.keys ∧
        ∀ h2, h2 ∈ [2, 1, 0] → h2 ≠ 0 → s2.keys[h2]? = sampleThree.keys[h2]?) ∧
      (∀ x, x ≠ 0 → x ≠ sampleThree.freeKeyTail → x ≠ lastH →
        s2.keys[x]? = sampleThree.keys[x]?) :=
  have hr : Reachable sampleThree [2, 1, 0] := ⟨[Op.add 10, Op.add 20, Op.add 30], by decide⟩
  have hm : 0 ∈ [2, 1, 0] := by decide
  ⟨hr, hm, removal_moves_at_most_one sampleThree [2, 1, 0] 0 hr hm⟩

/-- C17. Reuse delay: in a reachable state whose free chain `free` holds `m`
handles (`m >= 1`), after `removeElement` of a handle `h` in use, the first
`m` consecutive `addElement` calls return the handles of `free` in chain
order, none of them `h`, and the call after them returns `h`. -/
theorem reuse_delay {T : Type} (s : Slotmap T) (live free : List Nat) (h : Nat)
    (hr : Reachable s live) (hf : freeChain s = some free) (hh : h ∈ live) :
    1 ≤ free.length ∧ h ∉ free ∧
    ∃ s1, removeElement s h = some s1 ∧
      (∀ vs : List T, vs.length ≤ free.length →
        ∃ s2, addAll s1 vs = some (s2, free.take vs.length)) ∧
      (∀ vs : List T, vs.length = free.length + 1 →
        ∃ s2 handles, addAll s1 vs = some (s2, handles) ∧ handles = free ++ [h] ∧
          handles.take free.length = free ∧ handles[free.length]? = some h) := by
  have hc := hr.inv.core_of_freeChain hf
  have hpos : 1 ≤ free.length := by
    cases free with
    | nil => exact absurd rfl hc.chain.ne_nil
    | cons a t => simp
  have hnf : h ∉ free := fun hm => hc.disj h hm hh
  obtain ⟨s1, hrm, hc1, _⟩ := removeElement_core hc hh
  refine ⟨hpos, hnf, s1, hrm, ?_, ?_⟩
  · intro vs hlen
    have hle : vs.length ≤ (free ++ [h]).length := by
      rw [List.length_append]
      omega
    obtain ⟨s2, _, _, ha, _⟩ := Core.addAll_chain vs hc1 hle
    rw [List.take_append_of_le_length hlen] at ha
    exact ⟨s2, ha⟩
  · intro vs hlen
    have hle : vs.length ≤ (free ++ [h]).length := by
      rw [List.length_append]
      simp [hlen]
    obtain ⟨s2, _, _, ha, _⟩ := Core.addAll_chain vs hc1 hle
    have hall : (free ++ [h]).take vs.length = free ++ [h] := by
      apply List.take_of_length_le
      rw [List.length_append]
      simp [hlen]
    rw [hall] at ha
    exact ⟨s2, free ++ [h], ha, rfl, List.take_left _ _, List.getElem?_concat_length _ _⟩

/-- Witness of C17 on the state after three insertions and one removal, whose
free chain is 3, 0, for the handle 1. -/
theorem reuse_delay_witness :
    Reachable sampleRemoved [2, 1] ∧ freeChain sampleRemoved = some [3, 0] ∧ 1 ∈ [2, 1] ∧
    1 ≤ [3, 0].length ∧ 1 ∉ [3, 0] ∧
    ∃ s1, removeElement sampleRemoved 1 = some s1 ∧
      (∀ vs : List Nat, vs.length ≤ [3, 0].length →
        ∃ s2, addAll s1 vs = some (s2, [3, 0].take vs.length)) ∧
      (∀ vs : List Nat, vs.length = [3, 0].length + 1 →
        ∃ s2 handles, addAll s1 vs = some (s2, handles) ∧ handles = [3, 0] ++ [1] ∧
          handles.take [3, 0].length = [3, 0] ∧ handles[[3, 0].length]? = some 1) :=
  have hr : Reachable sampleRemoved [2, 1] :=
    ⟨[Op.add 10, Op.add 20, Op.add 30, Op.remove 0], by decide⟩
  have hf : freeChain sampleRemoved = some [3, 0] := by decide
  have hm : 1 ∈ [2, 1] := by decide
  ⟨hr, hf, hm, reuse_delay sampleRemoved [2, 1] [3, 0] 1 hr hf hm⟩

/-- C18. Stale-handle detection is exact: in every reachable state and for
every handle value `h`, the bounds-checked condition `h < keys.size()`,
`keys[h] < eraseMap.size()` and `eraseMap[keys[h]] == h` holds exactly when
`h` is in use, and so does the success of `elementAt`; the condition is false
for every handle that is not in use, whether removed, never issued or outside
the handle table. -/
theorem stale_handle_detection_exact {T : Type} (s : Slotmap T) (live : List Nat)
    (hr : Reachable s live) (h : Nat) :
    (debugCondition s h = true ↔ h ∈ live) ∧
    ((h < s.keys.length ∧ ∃ p, s.keys[h]? = some p ∧ p < s.eraseMap.length ∧
        s.eraseMap[p]? = some h) ↔ h ∈ live) ∧
    ((∃ x, elementAt s h = some x) ↔ h ∈ live) ∧
    (h ∉ live → debugCondition s h = false) ∧
    (s.keys.length ≤ h → debugCondition s h = false) := by
  have hi := hr.inv
  have hmain : (h < s.keys.length ∧ ∃ p, s.keys[h]? = some p ∧ p < s.eraseMap.length ∧
      s.eraseMap[p]? = some h) ↔ h ∈ live := by
    constructor
    · rintro ⟨_, p, _, _, hb⟩
      exact (hi.owner hb).1
    · intro hh
      obtain ⟨p, hp, hb, _, hlt⟩ := hi.lookup hh
      exact ⟨hlt, p, hp, lt_of_getElem?_some hb, hb⟩
  have hdbg : debugCondition s h = true ↔ h ∈ live := (debugCondition_iff s h).trans hmain
  have hfalse : h ∉ live → debugCondition s h = false := by
    intro hn
    cases hd : debugCondition s h with
    | false => rfl
    | true => exact absurd (hdbg.1 hd) hn
  refine ⟨hdbg, hmain, ?_, hfalse, ?_⟩
  · constructor
    · rintro ⟨x, hx⟩
      by_cases hlt : s.keys.length > h
      · simp only [Slotmap.elementAt, hlt, if_true] at hx
        cases hk : s.keys[h]? with
        | none => simp [hk] at hx
        | some p =>
          cases he : s.eraseMap[p]? with
          | none => simp [hk, he] at hx
          | some back =>
            by_cases hbk : back = h
            · subst hbk
              exact (hi.owner he).1
            · simp [hk, he, hbk] at hx
      · simp [Slotmap.elementAt, hlt] at hx
    · intro hh
      obtain ⟨_, x, _, _, hx⟩ := hi.elementAt_some hh
      exact ⟨x, hx⟩
  · intro hge
    apply hfalse
    intro hh
    obtain ⟨_, _, _, _, hlt⟩ := hi.lookup hh
    omega

/-- Witness of C18 on the state after three insertions and one removal, for
the removed handle 0. -/
theorem stale_handle_detection_exact_witness :
    Reachable sampleRemoved [2, 1] ∧
    (debugCondition sampleRemoved 0 = true ↔ 0 ∈ [2, 1]) ∧
    ((0 < sampleRemoved.keys.length ∧ ∃ p, sampleRemoved.keys[0]? = some p ∧
        p < sampleRemoved.eraseMap.length ∧ sampleRemoved.eraseMap[p]? = some 0) ↔
      0 ∈ [2, 1]) ∧
    ((∃ x, elementAt sampleRemoved 0 = some x) ↔ 0 ∈ [2, 1]) ∧
    (0 ∉ [2, 1] → debugCondition sampleRemoved 0 = false) ∧
    (sampleRemoved.keys.length ≤ 0 → debugCondition sampleRemoved 0 = false) :=
  have hr : Reachable sampleRemoved [2, 1] :=
    ⟨[Op.add 10, Op.add 20, Op.add 30, Op.remove 0], by decide⟩
  ⟨hr, stale_handle_detection_exact sampleRemoved [2, 1] hr 0⟩

/-- C19. `find` does not reject free handles: after inserting A, B, C
(handles hA, hB, hC) into a constructed slotmap and removing hA, the state is
reachable, hA is inside the handle table and not in use, and `find(hA)` is
the cursor at position 0, not `end()`, whose value is C and whose handle is
hC, a handle in use other than hA. -/
theorem find_accepts_free_handle {T : Type} (A B C : T) :
    ∃ s1 s2 s3 s4 hA hB hC,
      addElement (empty T) A = some (s1, hA) ∧ addElement s1 B = some (s2, hB) ∧
      addElement s2 C = some (s3, hC) ∧ removeElement s3 hA = some s4 ∧
      Reachable s4 [hC, hB] ∧ hA < s4.keys.length ∧ hA ∉ [hC, hB] ∧
      find s4 hA ≠ end_ s4 ∧ find s4 hA = 0 ∧
      deref s4 (find s4 hA) = some C ∧ handle s4 (find s4 hA) = some hC ∧
      hC ∈ [hC, hB] ∧ hC ≠ hA ∧ elementAt s4 hC = some C := by
  have h1 : addElement (empty T) A = some
      ({ elements := [A], keys := [0, 1], eraseMap := [0], freeKeyHead := 1,
         freeKeyTail := 1 }, 0) := rfl
  have h2 : addElement { elements := [A], keys := [0, 1], eraseMap := [0], freeKeyHead := 1,
                         freeKeyTail := 1 } B = some
      ({ elements := [A, B], keys := [0, 1, 2], eraseMap := [0, 1], freeKeyHead := 2,
         freeKeyTail := 2 }, 1) := rfl
  have h3 : addElement { elements := [A, B], keys := [0, 1, 2], eraseMap := [0, 1],
                         freeKeyHead := 2, freeKeyTail := 2 } C = some
      ({ elements := [A, B, C], keys := [0, 1, 2, 3], eraseMap := [0, 1, 2], freeKeyHead := 3,
         freeKeyTail := 3 }, 2) := rfl
  have h4 : removeElement { elements := [A, B, C], keys := [0, 1, 2, 3], eraseMap := [0, 1, 2],
                            freeKeyHead := 3, freeKeyTail := 3 } 0 = some
      { elements := [C, B], keys := [0, 1, 0, 0], eraseMap := [2, 1], freeKeyHead := 3,
        freeKeyTail := 0 } := rfl
  have hrun : run [Op.add A, Op.add B, Op.add C, Op.remove 0] = some
      (({ elements := [C, B], keys := [0, 1, 0, 0], eraseMap := [2, 1], freeKeyHead := 3,
          freeKeyTail := 0 } : Slotmap T), [2, 1]) := by
    simp [Slotmap.run, Slotmap.runFrom, Slotmap.step, h1, h2, h3, h4]
  refine ⟨_, _, _, _, 0, 1, 2, h1, h2, h3, h4, ⟨_, hrun⟩, ?_, ?_, ?_, rfl, rfl, rfl, ?_, ?_,
    rfl⟩
  · show 0 < 4
    omega
  · simp
  · show (0 : Nat) ≠ 2
    omega
  · simp
  · omega

/-- C20. Handles stay dense: along every sequence of operations from the
constructed slotmap, with `peak` the largest value `size()` has taken since
construction or the last `clear()`, `keys.size()` is at most `peak + 1`, the
handle an `addElement` call returns is at most the peak before the call, and
`keys.size()` after the call is at most the peak after the call plus one; and
`n` consecutive `addElement` calls on a constructed or cleared slotmap return
the handles 0, 1, ..., n-1. -/
theorem handles_stay_dense {T : Type} :
    (∀ (ops : List (Op T)) (st : Slotmap T × List Nat), run ops = some st →
      ∃ peak, runPeakFrom (empty T, []) 0 ops = some (st, peak)) ∧
    (∀ (ops : List (Op T)) (s : Slotmap T) (live : List Nat) (peak : Nat),
      runPeakFrom (empty T, []) 0 ops = some ((s, live), peak) →
      run ops = some (s, live) ∧ size s ≤ peak ∧ s.keys.length ≤ peak + 1 ∧
      ∀ v : T, ∃ s2 h, addElement s v = some (s2, h) ∧ h ≤ peak ∧
        runPeakFrom (empty T, []) 0 (ops ++ [Op.add v])
          = some ((s2, h :: live), max peak (size s2)) ∧
        s2.keys.length ≤ max peak (size s2) + 1) ∧
    (∀ (s : Slotmap T) (vs : List T),
      addAll (clear s) vs = addAll (empty T) vs ∧
      ∃ s2, addAll (empty T) vs = some (s2, List.range vs.length)) := by
  refine ⟨?_, ?_, ?_⟩
  · intro ops st hrun
    have hfst := runPeakFrom_fst ops (empty T, []) 0
    simp only [Slotmap.run] at hrun
    rw [hrun] at hfst
    cases hp : runPeakFrom (empty T, []) 0 ops with
    | none => simp [hp] at hfst
    | some r =>
      obtain ⟨st1, peak⟩ := r
      rw [hp] at hfst
      simp only [Option.map_some', Option.some.injEq] at hfst
      subst hfst
      exact ⟨peak, rfl⟩
  · intro ops s live peak hp
    have hfst := runPeakFrom_fst ops (empty T, []) 0
    rw [hp] at hfst
    have hrun : run ops = some (s, live) := hfst.symm
    obtain ⟨hi, h1, h2⟩ := Inv.runPeak_bound ops (Inv.init T) (Nat.zero_le _)
      (Nat.zero_le _) hp
    refine ⟨hrun, h1, h2, ?_⟩
    intro v
    obtain ⟨s2, ha, hi2, hsz, hkl, hhead⟩ := hi.add_lengths v
    have hstep : step (s, live) (Op.add v) = some (s2, s.freeKeyHead :: live) := by
      simp [Slotmap.step, ha]
    have hpeak : ∀ (ops1 : List (Op T)) (st0 : Slotmap T × List Nat) (p0 : Nat),
        runPeakFrom st0 p0 ops1 = some ((s, live), peak) →
        runPeakFrom st0 p0 (ops1 ++ [Op.add v])
          = some ((s2, s.freeKeyHead :: live), max peak (size s2)) := by
      intro ops1
      induction ops1 with
      | nil =>
        intro st0 p0 h0
        simp only [Slotmap.runPeakFrom, Option.some.injEq, Prod.mk.injEq] at h0
        obtain ⟨e1, e2⟩ := h0
        subst e1
        subst e2
        simp [Slotmap.runPeakFrom, hstep]
      | cons op rest ih =>
        intro st0 p0 h0
        cases op with
        | add w =>
          simp only [List.cons_append, Slotmap.runPeakFrom] at h0 ⊢
          cases hs : Slotmap.step st0 (Op.add w) with
          | none => simp [hs] at h0
          | some st1 =>
            rw [hs] at h0
            exact ih st1 _ h0
        | remove w =>
          simp only [List.cons_append, Slotmap.runPeakFrom] at h0 ⊢
          cases hs : Slotmap.step st0 (Op.remove w) with
          | none => simp [hs] at h0
          | some st1 =>
            rw [hs] at h0
            exact ih st1 _ h0
        | clear =>
          simp only [List.cons_append, Slotmap.runPeakFrom] at h0 ⊢
          cases hs : Slotmap.step st0 Op.clear with
          | none => simp [hs] at h0
          | some st1 =>
            rw [hs] at h0
            exact ih st1 _ h0
    refine ⟨s2, s.freeKeyHead, ha, ?_, hpeak ops _ _ hp, ?_⟩
    · rcases hhead with hlt | ⟨_, h0⟩
      · omega
      · omega
    · have := Nat.le_max_left peak (size s2)
      have := Nat.le_max_right peak (size s2)
      rcases hkl with hk | hk <;> omega
  · intro s vs
    refine ⟨rfl, ?_⟩
    cases vs with
    | nil => exact ⟨empty T, rfl⟩
    | cons v vs =>
      have hc1 := Core.add_single (Core.seed T) v
      obtain ⟨s2, h2⟩ := Core.addAll_fresh vs hc1 rfl
      refine ⟨s2, ?_⟩
      have h2b : addAll
          ({ elements := [v], keys := [0, 1], eraseMap := [0], freeKeyHead := 1,
             freeKeyTail := 1 } : Slotmap T) vs = some (s2, List.range' 1 vs.length) := h2
      simp only [Slotmap.addAll, addElement_empty, Option.some_bind, h2b, Option.map_some',
        List.length_cons, List.range_eq_range']
      rfl

/-- Witness of C20 on three insertions, one removal and the insertion that
follows. -/
theorem handles_stay_dense_witness :
    run [Op.add 10, Op.add 20, Op.add 30, Op.remove 0] = some (sampleRemoved, [2, 1]) ∧
    runPeakFrom (empty Nat, []) 0 [Op.add 10, Op.add 20, Op.add 30, Op.remove 0]
      = some ((sampleRemoved, [2, 1]), 3) ∧
    (∃ peak, runPeakFrom (empty Nat, []) 0 [Op.add 10, Op.add 20, Op.add 30, Op.remove 0]
      = some ((sampleRemoved, [2, 1]), peak)) ∧
    (run [Op.add 10, Op.add 20, Op.add 30, Op.remove 0] = some (sampleRemoved, [2, 1]) ∧
      size sampleRemoved ≤ 3 ∧ sampleRemoved.keys.length ≤ 3 + 1 ∧
      ∀ v : Nat, ∃ s2 h, addElement sampleRemoved v = some (s2, h) ∧ h ≤ 3 ∧
        runPeakFrom (empty Nat, []) 0 ([Op.add 10, Op.add 20, Op.add 30, Op.remove 0] ++ [Op.add v])
          = some ((s2, h :: [2, 1]), max 3 (size s2)) ∧
        s2.keys.length ≤ max 3 (size s2) + 1) :=
  have hrun : run [Op.add 10, Op.add 20, Op.add 30, Op.remove 0]
      = some (sampleRemoved, [2, 1]) := by decide
  have hpeak : runPeakFrom (empty Nat, []) 0 [Op.add 10, Op.add 20, Op.add 30, Op.remove 0]
      = some ((sampleRemoved, [2, 1]), 3) := by decide
  ⟨hrun, hpeak, handles_stay_dense.1 _ _ hrun, handles_stay_dense.2.1 _ _ _ _ hpeak⟩

end Slotmap
